import Mathlib

/-!
Verification of the reconciliation and synchronization layer of
vue3-nichessboard: the coordinate mapper, the config reconciler
(deep copy / merge / diff), the event-hook patcher of `setConfig`,
and the `BoardApi` game-state bridge (`src/helper/Board.ts`,
`src/helper/DefaultConfig.ts`, `src/classes/BoardApi.ts`).

The rules engine (npm package `nichess`) and the visual board
(`nichessground`) are external collaborators; they are modeled
abstractly (an `Engine` record of state-transition and query
functions) where a claim depends on them.  The board shape constants
`NUM_ROWS = 8` and `NUM_SQUARES = 64` imported from the engine are
fixed here to the values consistent with the 64-entry start-position
string `initialPos` in `src/helper/DefaultConfig.ts`.
-/

/-! ## Coordinate mapper (`src/helper/Board.ts`) -/

/-- Board shape constant `NUM_ROWS` imported from the `nichess` engine. -/
def NUM_ROWS : Nat := 8

/-- Board shape constant `NUM_SQUARES` imported from the `nichess` engine. -/
def NUM_SQUARES : Nat := 64

/-- Function `squareIndexToCoordinates` of `Board.ts`:
`x = squareIndex - Math.floor(squareIndex / NUM_ROWS) * NUM_ROWS` (that is,
`squareIndex % NUM_ROWS`) and `y = Math.floor(squareIndex / NUM_ROWS)`,
both shifted to be 1-indexed. -/
def squareIndexToCoordinates (squareIndex : Nat) : Nat × Nat :=
  let x := squareIndex - squareIndex / NUM_ROWS * NUM_ROWS
  let y := squareIndex / NUM_ROWS
  (x + 1, y + 1)

/-- The `switch (x)` of `squareIndexToKey` assigning a file letter to a
1-indexed column; any other column leaves the file the empty string. -/
def fileOfX (x : Nat) : String :=
  match x with
  | 1 => "a"
  | 2 => "b"
  | 3 => "c"
  | 4 => "d"
  | 5 => "e"
  | 6 => "f"
  | 7 => "g"
  | 8 => "h"
  | _ => ""

/-- Function `squareIndexToKey` of `Board.ts`: file letter from the column,
concatenated with the decimal rank. -/
def squareIndexToKey (squareIndex : Nat) : String :=
  let xy := squareIndexToCoordinates squareIndex
  fileOfX xy.1 ++ toString xy.2

/-- The `switch (firstChar)` of `keyToSquareIndex`; an unrecognized first
character (including a missing one) leaves `x = 0`. -/
def fileCharToX (firstChar : Option Char) : Nat :=
  match firstChar with
  | some 'a' => 0
  | some 'b' => 1
  | some 'c' => 2
  | some 'd' => 3
  | some 'e' => 4
  | some 'f' => 5
  | some 'g' => 6
  | some 'h' => 7
  | _ => 0

/-- JavaScript `parseInt` applied to the single character `key[1]`:
a decimal digit parses to its value, anything else (including a missing
second character) yields `NaN`, modeled as `none`. -/
def parseIntChar (c : Option Char) : Option Int :=
  match c with
  | some ch => if ch.isDigit then some ((ch.toNat - '0'.toNat : Nat) : Int) else none
  | none => none

/-- Function `keyToSquareIndex` of `Board.ts`: `x` from the first character,
`y = parseInt(key[1]) - 1`, result `y * NUM_ROWS + x`.  A `NaN` rank
(non-digit or missing second character) propagates to a `NaN` result,
modeled as `none`. -/
def keyToSquareIndex (key : String) : Option Int :=
  let x := fileCharToX key.data[0]?
  match parseIntChar key.data[1]? with
  | some d => some ((d - 1) * (NUM_ROWS : Int) + (x : Int))
  | none => none

/-- The 64 keys of the 8-row, 64-square board: files a..h, ranks 1..8. -/
def validKeys : List String :=
  (List.range NUM_SQUARES).map squareIndexToKey

/-! ## Config reconciler (`deepCopy`, `deepMergeConfig`, `deepDiffConfig`)

A JavaScript configuration value is modeled as a tree: a plain object
(`isObject` true: an `Object` that is neither an `Array` nor a `Function`)
becomes a `CTree.node` carrying its ordered own enumerable properties, and
every other value becomes a `CTree.leaf`.  Functions and arrays, which
`isObject` classifies as non-objects and which all three reconciler
operations treat atomically and compare by reference, are leaves carrying
an opaque reference identity.  A `Map` instance (the `movable.dests`
default) is a plain object with no own enumerable properties, so it is a
`node` with empty fields.  A JavaScript object cannot have two own
properties with the same key, so field lists of trees that model real
configs have unique keys; `wellFormed` states that invariant. -/

/-- A non-object JavaScript leaf value: primitive, function, array or
undefined.  Functions and arrays carry an opaque reference identity;
strict equality on them is reference equality.  A number is carried as
the decimal literal written in the source (numerator over a power-of-ten
denominator): the modeled code performs no arithmetic on config numbers,
only strict equality, and the distinct decimal literals of the config are
pairwise distinct as literals. -/
inductive CVal where
  | vBool : Bool → CVal
  | vNum : Int → Nat → CVal
  | vStr : String → CVal
  | vFun : Nat → CVal
  | vArr : Nat → CVal
  | vUndefined : CVal
deriving DecidableEq

mutual
/-- A JavaScript config value: a non-object leaf or a plain-object node. -/
inductive CTree where
  | leaf : CVal → CTree
  | node : CFields → CTree
deriving DecidableEq

/-- The ordered own enumerable properties of a plain object. -/
inductive CFields where
  | nil : CFields
  | cons : String → CTree → CFields → CFields
deriving DecidableEq
end

/-- The `isObject` classifier of `Board.ts` (truthy, `instanceof Object`,
not an array, not a function), as a property of the modeled tree. -/
def CTree.isObj : CTree → Bool
  | .leaf _ => false
  | .node _ => true

/-- First binding of a key in a field list (JavaScript property lookup). -/
def lookupF : CFields → String → Option CTree
  | .nil, _ => none
  | .cons k v rest, key => if k = key then some v else lookupF rest key

/-- Whether a field list has a binding for a key (JavaScript `in`). -/
def hasKeyF (fs : CFields) (key : String) : Bool :=
  (lookupF fs key).isSome

/-- Own enumerable properties of a value: a leaf spreads to nothing. -/
def fieldsOf : CTree → CFields
  | .leaf _ => .nil
  | .node fs => fs

/-- JavaScript `t?.[key]`: `undefined` when `t` is not an object or lacks
the key. -/
def getJS (t : CTree) (key : String) : CTree :=
  match t with
  | .leaf _ => .leaf .vUndefined
  | .node fs => (lookupF fs key).getD (.leaf .vUndefined)

/-- Whether `t` is an object owning the key. -/
def hasKeyJS : CTree → String → Bool
  | .leaf _, _ => false
  | .node fs, key => hasKeyF fs key

/-- Number of fields (`Object.keys(x).length`). -/
def numFields : CFields → Nat
  | .nil => 0
  | .cons _ _ rest => numFields rest + 1

/-- Concatenation of field lists. -/
def appendF : CFields → CFields → CFields
  | .nil, b => b
  | .cons k v rest, b => .cons k v (appendF rest b)

/-- JavaScript strict inequality `a !== b` as used by `deepDiffConfig`,
which only reaches it when at most one side is a plain object: leaves
compare by value (functions and arrays by their reference identity), and
an object is never strictly equal to a non-object.  The object/object
case is unreachable there (the recursion branch catches it first). -/
def jsStrictNeq : CTree → CTree → Bool
  | .leaf a, .leaf b => !(a = b : Bool)
  | _, _ => true

mutual
/-- Function `deepCopy` of `Board.ts`: rebuild every plain-object node from its
entries; any other value is returned as is. -/
def deepCopy : CTree → CTree
  | .leaf v => .leaf v
  | .node fs => .node (deepCopyF fs)

/-- The map `Object.entries(value).map(([key, val]) => [key, deepCopy(val)])`. -/
def deepCopyF : CFields → CFields
  | .nil => .nil
  | .cons k v rest => .cons k (deepCopy v) (deepCopyF rest)
end

/-- The keys of `source` that `target` does not own, in source order, with
`deepCopy` applied: the suffix that the spread `{...target, ...source}`
appends and the `for`-loop then copies (neither side is a plain object at
such a key on the `target` side, since `target` lacks the key). -/
def mergeSourceOnly : CFields → CFields → CFields
  | .nil, _ => .nil
  | .cons k v rest, tf =>
      if hasKeyF tf k then mergeSourceOnly rest tf
      else .cons k (deepCopy v) (mergeSourceOnly rest tf)

mutual
/-- Function `deepMergeConfig` of `Board.ts`: `result = \x7b...target, ...source\x7d`,
then every key of `result` is recursively merged when both sides own a
plain object there, and deep-copied otherwise.  A leaf `target` spreads to
no fields, so the result is a copy of the fields of `source` (exact for
the non-string primitives, functions and arrays that occur in configs; the
reconciler is only ever applied to two plain objects at reachable call
sites). -/
def deepMergeConfig : CTree → CTree → CTree
  | .leaf _, s => .node (deepCopyF (fieldsOf s))
  | .node tf, s => .node (appendF (mergeOverTarget tf s) (mergeSourceOnly (fieldsOf s) tf))

/-- The keys of the target side of the spread: the value at key `k` is
`source[k]` when `source` owns `k`, else `target[k]`; it is recursively
merged when `isObject(target?.[k]) && isObject(source?.[k])`, else
deep-copied.  The entry value stands for `target[k]`: a JavaScript object
owns each key once. -/
def mergeOverTarget : CFields → CTree → CFields
  | .nil, _ => .nil
  | .cons k tv rest, s =>
      .cons k
        (if tv.isObj && (getJS s k).isObj then deepMergeConfig tv (getJS s k)
         else deepCopy (if hasKeyJS s k then getJS s k else tv))
        (mergeOverTarget rest s)
end

mutual
/-- Function `deepDiffConfig` of `Board.ts`: iterate the keys of `newConfig`; where
both sides hold plain objects recurse and keep a non-empty sub-diff; else
keep `newConfig[key]` when it differs (strict inequality) from
`oldConfig?.[key]`.  Iterating a leaf `newConfig` yields no keys, so the
diff is the empty object. -/
def deepDiffConfig : CTree → CTree → CTree
  | _, .leaf _ => .node .nil
  | old, .node nf => .node (diffFieldsF old nf)

/-- The `for (const key in newConfig)` loop of `deepDiffConfig`; the entry
value stands for `newConfig[key]`. -/
def diffFieldsF : CTree → CFields → CFields
  | _, .nil => .nil
  | old, .cons k nv rest =>
      if (getJS old k).isObj && nv.isObj then
        if 0 < numFields (fieldsOf (deepDiffConfig (getJS old k) nv)) then
          .cons k (deepDiffConfig (getJS old k) nv) (diffFieldsF old rest)
        else diffFieldsF old rest
      else if jsStrictNeq (getJS old k) nv then .cons k nv (diffFieldsF old rest)
      else diffFieldsF old rest
end

mutual
/-- Observational equality of `m` with `n` restricted to the key paths
present in `n`: at a leaf of `n` the values must be strictly equal, at an
object of `n` the value of `m` must be an object agreeing on every key of
`n` (an absent key reads as `undefined`, exactly as JavaScript property
access does). -/
def agreesOn : CTree → CTree → Bool
  | m, .leaf v => match m with
      | .leaf w => w = v
      | .node _ => false
  | m, .node nf => m.isObj && agreesFieldsOn m nf

/-- Pointwise agreement of `m` with each field of an object shape. -/
def agreesFieldsOn : CTree → CFields → Bool
  | _, .nil => true
  | m, .cons k nv rest => agreesOn (getJS m k) nv && agreesFieldsOn m rest
end

mutual
/-- Well-formedness of a modeled config: every object owns each key at
most once, as every JavaScript object does. -/
def wellFormed : CTree → Bool
  | .leaf _ => true
  | .node fs => wellFormedF fs

/-- Well-formedness of a field list: unique keys, well-formed values. -/
def wellFormedF : CFields → Bool
  | .nil => true
  | .cons k v rest => !hasKeyF rest k && wellFormed v && wellFormedF rest
end

mutual
/-- Size measure on trees, for strong induction. -/
def sizeT : CTree → Nat
  | .leaf _ => 1
  | .node fs => sizeF fs + 1

/-- Size measure on field lists. -/
def sizeF : CFields → Nat
  | .nil => 0
  | .cons _ v rest => sizeT v + sizeF rest + 1
end

/-- The per-key value of the target part of a merge. -/
def mergeValAt (s : CTree) (k : String) (tv : CTree) : CTree :=
  if (tv.isObj && (getJS s k).isObj) = true then deepMergeConfig tv (getJS s k)
  else deepCopy (if hasKeyJS s k = true then getJS s k else tv)

/-- Membership of a binding in a field list. -/
def MemF (k : String) (v : CTree) : CFields → Prop
  | .nil => False
  | .cons k1 v1 rest => (k1 = k ∧ v1 = v) ∨ MemF k v rest

/-- Builds a field list from a list of bindings (literal object syntax). -/
def toFields : List (String × CTree) → CFields
  | [] => .nil
  | (k, v) :: rest => .cons k v (toFields rest)

/-- Literal plain object. -/
def objL (l : List (String × CTree)) : CTree :=
  .node (toFields l)

/-- Boolean leaf literal. -/
def vb (b : Bool) : CTree := .leaf (.vBool b)

/-- Whole-number leaf literal. -/
def vn (n : Int) : CTree := .leaf (.vNum n 1)

/-- Fractional decimal leaf literal: numerator over denominator as
written in the source. -/
def vq (n : Int) (d : Nat) : CTree := .leaf (.vNum n d)

/-- String leaf literal. -/
def vs (s : String) : CTree := .leaf (.vStr s)

/-- Function leaf literal with a reference identity. -/
def vf (r : Nat) : CTree := .leaf (.vFun r)

/-- Array leaf literal with a reference identity. -/
def va (r : Nat) : CTree := .leaf (.vArr r)

/-- Undefined leaf literal. -/
def vu : CTree := .leaf .vUndefined

/-- The start-position string `initialPos` of `DefaultConfig.ts` (64
square descriptions: an 8-row, 64-square board). -/
def initialPos : String :=
  "0|0-warrior-60,0-knight-60,0-assassin-10,0-mage-10,0-king-10,0-assassin-10,0-knight-60,0-warrior-60,0-pawn-30,0-pawn-30,0-pawn-30,0-pawn-30,0-pawn-30,0-pawn-30,0-pawn-30,0-pawn-30,empty,empty,empty,empty,empty,empty,empty,empty,empty,empty,empty,empty,empty,empty,empty,empty,empty,empty,empty,empty,empty,empty,empty,empty,empty,empty,empty,empty,empty,empty,empty,empty,1-pawn-30,1-pawn-30,1-pawn-30,1-pawn-30,1-pawn-30,1-pawn-30,1-pawn-30,1-pawn-30,1-warrior-60,1-knight-60,1-assassin-10,1-mage-10,1-king-10,1-assassin-10,1-knight-60,1-warrior-60,"

/-- One brush entry of `drawable.brushes` in `defaultBoardConfig`. -/
def brushObj (key color : String) (opacity lineWidth : CTree) : CTree :=
  objL [("key", vs key), ("color", vs color), ("opacity", opacity),
    ("lineWidth", lineWidth)]

/-- The `defaultBoardConfig` tree of `src/helper/DefaultConfig.ts`.  The
`movable.dests` default is a `Map` instance: a plain object with no own
enumerable properties.  Function reference identities: 0 is the default
empty `movable.events.after` function; array identities 1 and 2 are the
`shapes` and `autoShapes` literals. -/
def defaultBoardConfigTree : CTree :=
  objL [
    ("fen", vs initialPos),
    ("orientation", vs "white"),
    ("turnColor", vs "white"),
    ("coordinates", vb false),
    ("autoCastle", vb true),
    ("viewOnly", vb false),
    ("disableContextMenu", vb false),
    ("addPieceZIndex", vb false),
    ("blockTouchScroll", vb false),
    ("highlight", objL [("lastMove", vb true), ("check", vb true)]),
    ("animation", objL [("enabled", vb true), ("duration", vn 300)]),
    ("lastMove", vu),
    ("movable", objL [
      ("free", vb false),
      ("color", vs "white"),
      ("showDests", vb true),
      ("dests", objL []),
      ("events", objL [("after", vf 0), ("afterNewPiece", vu)]),
      ("rookCastle", vb true)]),
    ("premovable", objL [
      ("enabled", vb true),
      ("showDests", vb true),
      ("castle", vb true),
      ("events", objL [("set", vu), ("unset", vu)])]),
    ("predroppable", objL [
      ("enabled", vb false),
      ("events", objL [("set", vu), ("unset", vu)])]),
    ("draggable", objL [
      ("enabled", vb true),
      ("distance", vn 3),
      ("autoDistance", vb true),
      ("showGhost", vb true),
      ("deleteOnDropOff", vb false)]),
    ("selectable", objL [("enabled", vb true)]),
    ("events", objL [
      ("change", vu), ("move", vu), ("dropNewPiece", vu),
      ("select", vu), ("insert", vu)]),
    ("drawable", objL [
      ("enabled", vb true),
      ("visible", vb true),
      ("defaultSnapToValidMove", vb true),
      ("eraseOnClick", vb true),
      ("shapes", va 1),
      ("autoShapes", va 2),
      ("brushes", objL [
        ("green", brushObj "g" "#15781B" (vn 1) (vn 10)),
        ("red", brushObj "r" "#882020" (vn 1) (vn 10)),
        ("blue", brushObj "b" "#003088" (vn 1) (vn 10)),
        ("yellow", brushObj "y" "#e68f00" (vn 1) (vn 10)),
        ("paleBlue", brushObj "pb" "#003088" (vq 4 10) (vn 15)),
        ("paleGreen", brushObj "pg" "#15781B" (vq 4 10) (vn 15)),
        ("paleRed", brushObj "pr" "#882020" (vq 4 10) (vn 15)),
        ("paleGrey", brushObj "pgr" "#4a4a4a" (vq 35 100) (vn 15))])])]

/-- Config `A` of the diff/merge round-trip scenario: the default config. -/
def cfgA : CTree := defaultBoardConfigTree

/-- Config `B` of the diff/merge round-trip scenario: `A` with `viewOnly`
set to `true` and `animation.duration` set to `500`, every other value
identical (functions, arrays and the `dests` map by reference). -/
def cfgB : CTree :=
  objL [
    ("fen", vs initialPos),
    ("orientation", vs "white"),
    ("turnColor", vs "white"),
    ("coordinates", vb false),
    ("autoCastle", vb true),
    ("viewOnly", vb true),
    ("disableContextMenu", vb false),
    ("addPieceZIndex", vb false),
    ("blockTouchScroll", vb false),
    ("highlight", objL [("lastMove", vb true), ("check", vb true)]),
    ("animation", objL [("enabled", vb true), ("duration", vn 500)]),
    ("lastMove", vu),
    ("movable", objL [
      ("free", vb false),
      ("color", vs "white"),
      ("showDests", vb true),
      ("dests", objL []),
      ("events", objL [("after", vf 0), ("afterNewPiece", vu)]),
      ("rookCastle", vb true)]),
    ("premovable", objL [
      ("enabled", vb true),
      ("showDests", vb true),
      ("castle", vb true),
      ("events", objL [("set", vu), ("unset", vu)])]),
    ("predroppable", objL [
      ("enabled", vb false),
      ("events", objL [("set", vu), ("unset", vu)])]),
    ("draggable", objL [
      ("enabled", vb true),
      ("distance", vn 3),
      ("autoDistance", vb true),
      ("showGhost", vb true),
      ("deleteOnDropOff", vb false)]),
    ("selectable", objL [("enabled", vb true)]),
    ("events", objL [
      ("change", vu), ("move", vu), ("dropNewPiece", vu),
      ("select", vu), ("insert", vu)]),
    ("drawable", objL [
      ("enabled", vb true),
      ("visible", vb true),
      ("defaultSnapToValidMove", vb true),
      ("eraseOnClick", vb true),
      ("shapes", va 1),
      ("autoShapes", va 2),
      ("brushes", objL [
        ("green", brushObj "g" "#15781B" (vn 1) (vn 10)),
        ("red", brushObj "r" "#882020" (vn 1) (vn 10)),
        ("blue", brushObj "b" "#003088" (vn 1) (vn 10)),
        ("yellow", brushObj "y" "#e68f00" (vn 1) (vn 10)),
        ("paleBlue", brushObj "pb" "#003088" (vq 4 10) (vn 15)),
        ("paleGreen", brushObj "pg" "#15781B" (vq 4 10) (vn 15)),
        ("paleRed", brushObj "pr" "#882020" (vq 4 10) (vn 15)),
        ("paleGrey", brushObj "pgr" "#4a4a4a" (vq 35 100) (vn 15))])])]

/-- The expected diff of `A` and `B`: exactly the two changed paths, in
the key order of `B`. -/
def diffAB : CTree :=
  objL [("viewOnly", vb true), ("animation", objL [("duration", vn 500)])]

/-! ## Game-state bridge (`src/classes/BoardApi.ts`)

The `nichess` rules engine is an external collaborator: it is modeled as
a record of its capability set over an abstract state type (apply an
action by source and destination index, query legal actions for a square,
query the current player, game-over and draw status, list pieces, export
a position string).  JavaScript numbers that can be `NaN` (the result of
`keyToSquareIndex` on a malformed key) are `Option Int`, with `none` for
`NaN`; engine-produced indices are ordinary numbers.  The bridge state
gathers the fields of the rules engine, of the visual board and of the
component `BoardState` that the modeled operations read or write. -/

/-- The two players of the rules engine. -/
inductive Player where
  | p1 : Player
  | p2 : Player
deriving DecidableEq

/-- The source expression `1 - currentPlayer`. -/
def otherPlayer : Player → Player
  | .p1 => .p2
  | .p2 => .p1

/-- A legal action of the rules engine: source and destination index. -/
structure PlayerAction where
  srcIdx : Int
  dstIdx : Int
deriving DecidableEq

/-- The piece types of the `nichess` engine. -/
inductive PieceType where
  | P1_KING | P1_MAGE | P1_WARRIOR | P1_ASSASSIN | P1_KNIGHT | P1_PAWN
  | P2_KING | P2_MAGE | P2_WARRIOR | P2_ASSASSIN | P2_KNIGHT | P2_PAWN
deriving DecidableEq

/-- Function `nichessTypeToRole` of `Board.ts`. -/
def nichessTypeToRole : PieceType → String
  | .P1_KING => "king"
  | .P1_MAGE => "queen"
  | .P1_WARRIOR => "rook"
  | .P1_ASSASSIN => "bishop"
  | .P1_KNIGHT => "knight"
  | .P1_PAWN => "pawn"
  | .P2_KING => "king"
  | .P2_MAGE => "queen"
  | .P2_WARRIOR => "rook"
  | .P2_ASSASSIN => "bishop"
  | .P2_KNIGHT => "knight"
  | .P2_PAWN => "pawn"

/-- Function `nichessTypeToColor` of `Board.ts`. -/
def nichessTypeToColor : PieceType → String
  | .P1_KING => "white"
  | .P1_MAGE => "white"
  | .P1_WARRIOR => "white"
  | .P1_ASSASSIN => "white"
  | .P1_KNIGHT => "white"
  | .P1_PAWN => "white"
  | .P2_KING => "black"
  | .P2_MAGE => "black"
  | .P2_WARRIOR => "black"
  | .P2_ASSASSIN => "black"
  | .P2_KNIGHT => "black"
  | .P2_PAWN => "black"

/-- A piece as reported by the engine: square, type, health. -/
structure NPiece where
  squareIndex : Nat
  ptype : PieceType
  healthPoints : Int
deriving DecidableEq

/-- The render-facing piece projection `{role, color, healthPoints}`. -/
structure PieceView where
  role : String
  color : String
  healthPoints : Int
deriving DecidableEq

/-- The capability set of the `nichess` rules engine consumed by the
bridge, over an abstract engine-state type. -/
structure Engine (sigma : Type) where
  makeAction : sigma → Option Int → Option Int → sigma
  legalActionsBySquare : sigma → Option Int → List PlayerAction
  isGameOver : sigma → Bool
  currentPlayer : sigma → Player
  allPiecesByPlayer : sigma → Player → List NPiece
  moveNumber : sigma → Int
  boardToString : sigma → String

/-- A `nichessground` color value. -/
inductive CgColor where
  | white : CgColor
  | black : CgColor
  | both : CgColor
deriving DecidableEq

/-- State `historyViewerState` of the component `BoardState`: disabled, or
viewing a ply with the saved pre-viewing `viewOnly` flag. -/
inductive HVState where
  | off : HVState
  | on : Int → Bool → HVState
deriving DecidableEq

/-- Whether the history viewer is enabled. -/
def HVState.isEnabled : HVState → Bool
  | .off => false
  | .on _ _ => true

/-- The bridge state: the engine state plus the board and component
fields that the modeled operations read or write. -/
structure ApiState (sigma : Type) where
  game : sigma
  turnColor : CgColor
  movableColor : Option CgColor
  movableDests : List (String × List String)
  movableFree : Bool
  pieces : List (String × Option PieceView)
  boardFen : String
  boardViewOnly : Bool
  hv : HVState
  propsPlayerColor : Option CgColor
deriving DecidableEq

/-- JavaScript `===` on numbers that may be `NaN` (`none`): `NaN` is
strictly equal to nothing, including itself. -/
def jsNumEq : Option Int → Option Int → Bool
  | some x, some y => x = y
  | _, _ => false

/-- Operation `Map.set` on an association list: replace the first binding of the
key in place, else append. -/
def setKey (m : List (String × Option PieceView)) (k : String)
    (v : Option PieceView) : List (String × Option PieceView) :=
  match m with
  | [] => [(k, v)]
  | (k1, v1) :: rest => if k1 = k then (k, v) :: rest else (k1, v1) :: setKey rest k v

/-- The `{role, color, healthPoints}` projection of one engine piece. -/
def pieceViewOf (p : NPiece) : PieceView :=
  ⟨nichessTypeToRole p.ptype, nichessTypeToColor p.ptype, p.healthPoints⟩

/-- One player loop of `fullRerender`: pieces with positive health are
projected onto their keys; dead pieces are skipped. -/
def addPiecesToDiff (ps : List NPiece) (m : List (String × Option PieceView)) :
    List (String × Option PieceView) :=
  match ps with
  | [] => m
  | p :: rest =>
      if p.healthPoints ≤ 0 then addPiecesToDiff rest m
      else addPiecesToDiff rest (setKey m (squareIndexToKey p.squareIndex) (some (pieceViewOf p)))

/-- Function `fullRerender` of `Board.ts` as the piece map it pushes to the visual
board: every square keyed to `undefined`, then the live pieces of the
current player and of the other player. -/
def fullRerenderMap {sigma : Type} (e : Engine sigma) (g : sigma) :
    List (String × Option PieceView) :=
  let base := (List.range NUM_SQUARES).map (fun i => (squareIndexToKey i, (none : Option PieceView)))
  let m1 := addPiecesToDiff (e.allPiecesByPlayer g (e.currentPlayer g)) base
  addPiecesToDiff (e.allPiecesByPlayer g (otherPlayer (e.currentPlayer g))) m1

/-- Function `possibleMoves` of `Board.ts`: for every square with a non-empty
legal-action list, its key mapped to the destination keys. -/
def possibleMovesMap {sigma : Type} (e : Engine sigma) (g : sigma) :
    List (String × List String) :=
  (List.range NUM_SQUARES).filterMap (fun (i : Nat) =>
    let legalMoves := e.legalActionsBySquare g (some (i : Int))
    if legalMoves.length ≠ 0 then
      some (squareIndexToKey i, legalMoves.map (fun m => squareIndexToKey m.dstIdx.toNat))
    else none)

/-- Method `getTurnColor` of `BoardApi.ts`. -/
def getTurnColor {sigma : Type} (e : Engine sigma) (g : sigma) : CgColor :=
  if e.currentPlayer g = .p1 then .white else .black

/-- Method `isMoveLegal` of `BoardApi.ts`: whether some legal action of the
source square has exactly the requested source and destination index. -/
def isMoveLegal {sigma : Type} (e : Engine sigma) (s : ApiState sigma)
    (mfrom mto : String) : Bool :=
  let srcIdx := keyToSquareIndex mfrom
  let dstIdx := keyToSquareIndex mto
  (e.legalActionsBySquare s.game srcIdx).any (fun a =>
    jsNumEq (some a.srcIdx) srcIdx && jsNumEq (some a.dstIdx) dstIdx)

/-- Method `updateGameState` of `BoardApi.ts`: when the history viewer is
disabled, refresh the board fen (when asked), the turn color, the movable
color (`props.playerColor || turnColor`, or `both` in free mode) and the
legal-destination map; `emitEvents` only notifies the host. -/
def updateGameState {sigma : Type} (e : Engine sigma) (s : ApiState sigma)
    (updateFen : Bool) : ApiState sigma :=
  if s.hv.isEnabled = false then
    let s1 := if updateFen then { s with boardFen := e.boardToString s.game } else s
    let s2 := { s1 with turnColor := getTurnColor e s1.game }
    if s2.movableFree then { s2 with movableColor := some .both, movableDests := [] }
    else
      { s2 with
        movableColor := (match s2.propsPlayerColor with
          | some c => some c
          | none => some s2.turnColor),
        movableDests := possibleMovesMap e s2.game }
  else s

/-- Method `forbidMoves` of `BoardApi.ts`: clears the movable color of the
visual board (the code comments that this only prevents GUI moves). -/
def forbidMoves {sigma : Type} (s : ApiState sigma) : ApiState sigma :=
  { s with movableColor := none }

/-- Method `allowMoves` of `BoardApi.ts`. -/
def allowMoves {sigma : Type} (s : ApiState sigma) : ApiState sigma :=
  { s with movableColor := some s.turnColor }

/-- The argument of `BoardApi.move`: a SAN string or an
origin/destination object with an optional promotion. -/
inductive MoveArg where
  | str : String → MoveArg
  | obj : String → String → Option String → MoveArg

/-- Method `move` of `BoardApi.ts`: an object argument is applied unconditionally (the
action is sent to the engine, the piece projection is fully rebuilt, the
game state refreshed, moves forbidden on game over) and `true` is
returned; any string argument falls to the `else` branch, which returns
`false` and does nothing.  `emit` and the deferred premove replay notify
the host and are not bridge state. -/
def move {sigma : Type} (e : Engine sigma) (s : ApiState sigma)
    (m : MoveArg) (_emitEvent : Bool) : Bool × ApiState sigma :=
  match m with
  | .obj mfrom mto _ =>
      let srcIdx := keyToSquareIndex mfrom
      let dstIdx := keyToSquareIndex mto
      let g1 := e.makeAction s.game srcIdx dstIdx
      let s2 := { s with game := g1, pieces := fullRerenderMap e g1 }
      let s3 := updateGameState e s2 false
      let s4 := if e.isGameOver g1 then forbidMoves s3 else s3
      (true, s4)
  | .str _ => (false, s)

/-- Method `getCurrentTurnNumber` of `BoardApi.ts`. -/
def getCurrentTurnNumber {sigma : Type} (e : Engine sigma)
    (s : ApiState sigma) : Int :=
  e.moveNumber s.game

/-- Method `getCurrentPlyNumber` of `BoardApi.ts`. -/
def getCurrentPlyNumber {sigma : Type} (e : Engine sigma)
    (s : ApiState sigma) : Int :=
  2 * getCurrentTurnNumber e s - (if getTurnColor e s.game = .black then 1 else 2)

/-- The annotated move payload of the history API (its fields are never
produced: the operations below are stubs). -/
structure MoveEvent where
  fromKey : String
  toKey : String
  san : String
deriving DecidableEq

/-- A square of the 2D board export of `getBoardPosition` (never
produced: the operation is a stub). -/
structure BoardSquare where
  square : String
  ptype : String
  color : String
deriving DecidableEq

/-- Method `undoLastMove` of `BoardApi.ts`: a stub (`// TODO`), returns at once. -/
def undoLastMove {sigma : Type} (s : ApiState sigma) : ApiState sigma := s

/-- Method `loadPgn` of `BoardApi.ts`: a stub (`// TODO`), returns at once. -/
def loadPgn {sigma : Type} (s : ApiState sigma) (_pgn : String) : ApiState sigma := s

/-- Method `getHistory` of `BoardApi.ts`: a stub, returns the empty list for
either verbosity. -/
def getHistory {sigma : Type} (_s : ApiState sigma) (_verbose : Bool) : List MoveEvent := []

/-- Method `getLastMove` of `BoardApi.ts`: a stub, returns `undefined`. -/
def getLastMove {sigma : Type} (_s : ApiState sigma) : Option MoveEvent := none

/-- Method `getBoardPosition` of `BoardApi.ts`: a stub, returns the empty array. -/
def getBoardPosition {sigma : Type} (_s : ApiState sigma) :
    List (List (Option BoardSquare)) := []

/-- Method `getPgnInfo` of `BoardApi.ts`: a stub, returns the empty record. -/
def getPgnInfo {sigma : Type} (_s : ApiState sigma) : List (String × String) := []

/-- Method `viewHistory` of `BoardApi.ts`: a stub (`// TODO`), returns at once
with no state change. -/
def viewHistory {sigma : Type} (s : ApiState sigma) (_ply : Int) : ApiState sigma := s

/-- Method `stopViewingHistory` of `BoardApi.ts`: when the viewer is enabled,
delegates to `viewHistory` at the current ply (itself a stub). -/
def stopViewingHistory {sigma : Type} (e : Engine sigma) (s : ApiState sigma) :
    ApiState sigma :=
  if s.hv.isEnabled then viewHistory s (getCurrentPlyNumber e s) else s

/-! ## The `movable.events.after` patching of `setConfig`

`setConfig` patches the internal `changeTurn` handler before a
caller-supplied `after` hook.  The dataflow of the `after` slot is
modeled directly: a `Hook` is the caller hook (which cannot invoke the
private `changeTurn`), the bound internal handler alone, or the wrapper
`async (...args) => { await changeTurn(...args); userAfter(...args) }` around
a captured hook.  With `fillDefaults` true, `setConfig` rebinds `config`
to `deepMergeConfig(defaultBoardConfig, config)`, a fresh tree whose
`after` leaf is the caller function by reference (function leaves are
returned as-is by `deepCopy`), so the assignment
`config.movable.events.after = ...` mutates only that fresh copy; with
`fillDefaults` false the assignment mutates the caller-visible slot of
the caller config object in place.  In both cases `board.set` then
installs the patched value as the board-state slot. -/

/-- A value of the `after` slot that can actually be invoked. -/
inductive Hook where
  | user : Nat → Hook
  | changeTurnBound : Hook
  | patched : Hook → Hook
deriving DecidableEq

/-- How many times one invocation of the hook runs the internal
`changeTurn` handler: a caller hook cannot run it, the bound handler runs
it once, and the wrapper runs it once and then invokes the captured hook. -/
def changeTurnRuns : Hook → Nat
  | .user _ => 0
  | .changeTurnBound => 1
  | .patched h => 1 + changeTurnRuns h

/-- The `after` slots visible in `setConfig`: the caller config object
slot (present, possibly holding `undefined`) and the board-state slot. -/
structure HookSlots where
  callerAfter : Option Hook
  boardAfter : Option Hook
deriving DecidableEq

/-- The patch of the `after` slot: wrap a supplied hook, or install the
bound internal handler when the slot holds `undefined`. -/
def patchSlot (v : Option Hook) : Hook :=
  match v with
  | some u => .patched u
  | none => .changeTurnBound

/-- The effect of one `setConfig` call on the `after` slots, for a config
whose `movable.events` owns `after`. -/
def setConfigHook (s : HookSlots) (fillDefaults : Bool) : HookSlots :=
  if fillDefaults then
    { callerAfter := s.callerAfter, boardAfter := some (patchSlot s.callerAfter) }
  else
    let p := patchSlot s.callerAfter
    { callerAfter := some p, boardAfter := some p }

/-- A sequence of `setConfig` calls with the given `fillDefaults` flags. -/
def setConfigSeq : HookSlots → List Bool → HookSlots
  | s, [] => s
  | s, b :: rest => setConfigSeq (setConfigHook s b) rest

/-- Number of `changeTurn` executions caused by one move, which invokes the
installed board-state `after` hook once. -/
def changeTurnRunsPerMove (s : HookSlots) : Nat :=
  match s.boardAfter with
  | some h => changeTurnRuns h
  | none => 0

/-- Iterated wrapping of a hook. -/
def patchedIter : Nat → Hook → Hook
  | 0, h => h
  | n + 1, h => patchedIter n (.patched h)

/-! ## Concrete engine instances for the scenario evaluations -/

/-- An abstract stand-in engine over a move counter, with an empty
legal-action set everywhere (so every move request is illegal): applying
an action increments the counter, the game is never over. -/
def natEngine : Engine Nat where
  makeAction := fun g _ _ => g + 1
  legalActionsBySquare := fun _ _ => []
  isGameOver := fun _ => false
  currentPlayer := fun g => if g % 2 = 0 then .p1 else .p2
  allPiecesByPlayer := fun _ _ => []
  moveNumber := fun g => (g : Int)
  boardToString := fun g => toString g

/-- An engine over a move counter whose game is over after the first
action, and which always reports the action a2 to a3 (indices 8 to 16)
as legal. -/
def overEngine : Engine Nat where
  makeAction := fun g _ _ => g + 1
  legalActionsBySquare := fun _ _ => [⟨8, 16⟩]
  isGameOver := fun g => decide (1 ≤ g)
  currentPlayer := fun g => if g % 2 = 0 then .p1 else .p2
  allPiecesByPlayer := fun _ _ => []
  moveNumber := fun g => (g : Int)
  boardToString := fun g => toString g

/-- A fresh bridge state over a counter engine. -/
def natStart : ApiState Nat where
  game := 0
  turnColor := .white
  movableColor := some .white
  movableDests := []
  movableFree := false
  pieces := []
  boardFen := ""
  boardViewOnly := false
  hv := .off
  propsPlayerColor := none

/-- The state reached from `natStart` after three applied moves of the
stand-in engine. -/
def natAfter3 : ApiState Nat :=
  (move natEngine
    ((move natEngine
      ((move natEngine natStart (.obj "e2" "e4" none) true).2)
      (.obj "e7" "e5" none) true).2)
    (.obj "g1" "f3" none) true).2

/-- The state reached from `natStart` after the game-ending first move
of `overEngine`. -/
def overAfter1 : ApiState Nat :=
  (move overEngine natStart (.obj "a2" "a3" none) true).2

/-! ## Heap model of the config reconciler (reference identity)

The pure tree model above cannot state reference identity or mutation,
so `deepCopy` and `deepMergeConfig` are re-embedded here with explicit
references: a plain object is a reference into a store of ordered field
lists; every other value (primitives, plus functions and arrays with
their opaque identity) is immediate.  The JavaScript functions build a
fresh object for each object literal they evaluate
(`Object.fromEntries(...)`, `{...target, ...source}`) and assign only
into that fresh object; the model allocates each result object once its
fields are computed, which yields the same final store contents.
Recursion carries fuel; on the acyclic inputs the source accepts, fuel
equal to the size of the represented tree suffices (on a cyclic
structure, on which the JavaScript functions diverge, every fuel runs
out). -/

/-- A heap-model JavaScript value: an immediate non-object or a
reference to a stored plain object. -/
inductive HVal where
  | prim : CVal → HVal
  | ref : Nat → HVal
deriving DecidableEq

/-- The store: ordered association of addresses to object field lists. -/
structure Heap where
  next : Nat
  store : List (Nat × List (String × HVal))
deriving DecidableEq

/-- First stored field list at an address. -/
def lookupStore : List (Nat × List (String × HVal)) → Nat → Option (List (String × HVal))
  | [], _ => none
  | (a, fs) :: rest, b => if a = b then some fs else lookupStore rest b

/-- First binding of a key in a heap field list. -/
def lookupHF : List (String × HVal) → String → Option HVal
  | [], _ => none
  | (k, v) :: rest, key => if k = key then some v else lookupHF rest key

/-- Allocation of a fresh object holding the given fields. -/
def allocH (h : Heap) (fs : List (String × HVal)) : HVal × Heap :=
  (.ref h.next, ⟨h.next + 1, (h.next, fs) :: h.store⟩)

/-- Classification `isObject` in the heap model: exactly the references. -/
def isObjH : HVal → Bool
  | .ref _ => true
  | .prim _ => false

/-- Own enumerable fields of a value: a non-object spreads to nothing. -/
def fieldsOfH (h : Heap) : HVal → List (String × HVal)
  | .ref a => (lookupStore h.store a).getD []
  | .prim _ => []

/-- Lookup `t?.[key]` in the heap model. -/
def getHV (h : Heap) (v : HVal) (key : String) : HVal :=
  match v with
  | .ref a => (lookupHF ((lookupStore h.store a).getD []) key).getD (.prim .vUndefined)
  | .prim _ => .prim .vUndefined

/-- The spread `{...target, ...source}` on field lists: the target keys
in order with source overrides, then the source-only keys. -/
def spreadMergeH (tf sf : List (String × HVal)) : List (String × HVal) :=
  tf.map (fun p => (p.1, (lookupHF sf p.1).getD p.2)) ++
    sf.filter (fun p => (lookupHF tf p.1).isNone)

mutual
/-- Function `deepCopy` in the heap model: a non-object is returned as is (same
reference for functions and arrays); an object has its fields copied and
is rebuilt as a fresh allocation. -/
def deepCopyH : Nat → Heap → HVal → Option (HVal × Heap)
  | 0, _, _ => none
  | _ + 1, h, .prim v => some (.prim v, h)
  | n + 1, h, .ref a =>
      match lookupStore h.store a with
      | none => none
      | some hf =>
          match deepCopyFieldsH n h hf with
          | none => none
          | some (hf2, h2) => some (allocH h2 hf2)

/-- The map `Object.entries(value).map(([key, val]) => [key, deepCopy(val)])` in
the heap model, threading the heap left to right. -/
def deepCopyFieldsH : Nat → Heap → List (String × HVal) → Option (List (String × HVal) × Heap)
  | 0, _, _ => none
  | _ + 1, h, [] => some ([], h)
  | n + 1, h, (k, v) :: rest =>
      match deepCopyH n h v with
      | none => none
      | some (v2, h2) =>
          match deepCopyFieldsH n h2 rest with
          | none => none
          | some (rest2, h3) => some ((k, v2) :: rest2, h3)
end

mutual
/-- Function `deepMergeConfig` in the heap model: spread both sides, process every
key of the spread, and allocate the result object fresh. -/
def deepMergeConfigH : Nat → Heap → HVal → HVal → Option (HVal × Heap)
  | 0, _, _, _ => none
  | n + 1, h, t, s =>
      match mergeEntriesH n h t s (spreadMergeH (fieldsOfH h t) (fieldsOfH h s)) with
      | none => none
      | some (fs2, h2) => some (allocH h2 fs2)

/-- The `for (const key in result)` loop of `deepMergeConfig`: where both
sides own plain objects at the key, recursively merge them; otherwise
deep-copy the spread value. -/
def mergeEntriesH : Nat → Heap → HVal → HVal → List (String × HVal) →
    Option (List (String × HVal) × Heap)
  | 0, _, _, _, _ => none
  | _ + 1, h, _, _, [] => some ([], h)
  | n + 1, h, t, s, (k, v) :: rest =>
      match
        (if (isObjH (getHV h t k) && isObjH (getHV h s k)) = true then
          deepMergeConfigH n h (getHV h t k) (getHV h s k)
        else deepCopyH n h v) with
      | none => none
      | some (v2, h2) =>
          match mergeEntriesH n h2 t s rest with
          | none => none
          | some (rest2, h3) => some ((k, v2) :: rest2, h3)
end

mutual
/-- A heap value represents a pure config tree, with every reference at
or above the bound `n`: primitives carry the same leaf value; a
reference is a stored object whose fields represent the tree fields in
order. -/
inductive RepGE (st : List (Nat × List (String × HVal))) (n : Nat) : HVal → CTree → Prop where
  | prim : ∀ v, RepGE st n (.prim v) (.leaf v)
  | ref : ∀ a hf fs, n ≤ a → lookupStore st a = some hf → RepFGE st n hf fs →
      RepGE st n (.ref a) (.node fs)

/-- Pointwise representation of field lists. -/
inductive RepFGE (st : List (Nat × List (String × HVal))) (n : Nat) :
    List (String × HVal) → CFields → Prop where
  | nil : RepFGE st n [] .nil
  | cons : ∀ k v t hf fs, RepGE st n v t → RepFGE st n hf fs →
      RepFGE st n ((k, v) :: hf) (.cons k t fs)
end

/-- Heap well-formedness: every stored address is below the allocation
counter. -/
def heapWF (h : Heap) : Bool :=
  h.store.all (fun p => decide (p.1 < h.next))

/-- Store extension: the allocation counter does not decrease and every
address of the smaller heap keeps its exact content — in particular no
pre-existing object is mutated. -/
def HeapExt (h h2 : Heap) : Prop :=
  h.next ≤ h2.next ∧ ∀ a, a < h.next → lookupStore h2.store a = lookupStore h.store a

/-- The concrete tree of the C7 witness. -/
def treeW : CTree := .node (.cons "a" (.leaf (.vBool true)) .nil)

/-- The concrete heap of the C7 witness: address 0 holds the object
representing `treeW`, address 1 holds the empty-object literal. -/
def heapW : Heap :=
  ⟨2, [(0, [("a", .prim (.vBool true))]), (1, [])]⟩

/-! ## Coordinate mapper theorems -/

set_option maxRecDepth 20000 in
/-- C3: `squareIndexToKey` and `keyToSquareIndex` are mutual inverses over
the full board: every index below `NUM_SQUARES = 64` round-trips through its
key, and every valid key round-trips through its index. -/
theorem coordinate_bijection :
    (∀ i < NUM_SQUARES, keyToSquareIndex (squareIndexToKey i) = some (i : Int)) ∧
    (∀ k ∈ validKeys, ∃ i < NUM_SQUARES,
      keyToSquareIndex k = some (i : Int) ∧ squareIndexToKey i = k) := by
  constructor
  · decide
  · decide

/-- Witness for C3 at a concrete input: index 12 round-trips through key e2. -/
theorem coordinate_bijection_witness :
    keyToSquareIndex (squareIndexToKey 12) = some (12 : Int) :=
  coordinate_bijection.1 12 (by decide)

/-- C4 counterexample: out-of-range coordinates are NOT rejected with an
`InvalidCoordinate` error.  The out-of-range key "z5" silently produces the
same index as the valid key "a5", and the out-of-range index 64 silently
produces the key "a9", which is not a key of the board. -/
theorem invalid_coordinate_not_signaled :
    keyToSquareIndex "z5" = some 32 ∧
    keyToSquareIndex "a5" = some 32 ∧
    squareIndexToKey 64 = "a9" ∧ "a9" ∉ validKeys := by
  refine ⟨by decide, by decide, by decide, by decide⟩

/-- C4 amended: neither direction signals an `InvalidCoordinate` error for
out-of-range input; both silently return ordinary values.  Every two-character
key whose file character is outside a..h is mapped as if its file were the
first column (x = 0), so it silently aliases the key with file a and the same
rank character; an out-of-range index is mapped arithmetically to a key
beyond the board (64 to "a9"), never to an error. -/
theorem invalid_coordinate_silent :
    (∀ c r : Char, c ∉ ['a', 'b', 'c', 'd', 'e', 'f', 'g', 'h'] →
      keyToSquareIndex (String.mk [c, r]) = keyToSquareIndex (String.mk ['a', r])) ∧
    keyToSquareIndex "z5" = some 32 ∧
    squareIndexToKey 64 = "a9" := by
  refine ⟨?_, by decide, by decide⟩
  intro c r hc
  have hx : fileCharToX (some c) = 0 := by
    unfold fileCharToX
    split <;> simp_all
  have hmk : ∀ c' : Char, keyToSquareIndex (String.mk [c', r]) =
      match parseIntChar (some r) with
      | some d => some ((d - 1) * (NUM_ROWS : Int) + (fileCharToX (some c') : Int))
      | none => none := fun _ => rfl
  rw [hmk, hmk, hx]
  rfl

/-- Witness for the amended C4 statement at the concrete out-of-range key
"z5", which aliases "a5". -/
theorem invalid_coordinate_silent_witness :
    keyToSquareIndex (String.mk ['z', '5']) = keyToSquareIndex (String.mk ['a', '5']) :=
  invalid_coordinate_silent.1 'z' '5' (by decide)



/-! ## Structural induction helpers for the config model -/

/-- Mutual structural induction over trees and field lists. -/
theorem ctree_mutual_ind (P : CTree → Prop) (Q : CFields → Prop)
    (hleaf : ∀ v, P (.leaf v)) (hnode : ∀ fs, Q fs → P (.node fs))
    (hnil : Q .nil) (hcons : ∀ k v fs, P v → Q fs → Q (.cons k v fs)) :
    (∀ t, P t) ∧ (∀ fs, Q fs) :=
  ⟨fun t => CTree.rec hleaf hnode hnil hcons t,
   fun fs => CFields.rec hleaf hnode hnil hcons fs⟩

/-- List-style induction over field lists. -/
theorem cfields_ind (Q : CFields → Prop) (hnil : Q .nil)
    (hcons : ∀ k v fs, Q fs → Q (.cons k v fs)) (fs : CFields) : Q fs :=
  (ctree_mutual_ind (fun _ => True) Q (fun _ => trivial) (fun _ _ => trivial)
    hnil (fun k v fs _ h => hcons k v fs h)).2 fs

/-- On the pure tree model, `deepCopy` is the structural identity (the heap
model below accounts for the fresh references it allocates). -/
theorem deepCopy_eq_self :
    (∀ t, deepCopy t = t) ∧ (∀ fs, deepCopyF fs = fs) := by
  refine ctree_mutual_ind _ _ ?_ ?_ ?_ ?_
  · intro v; simp [deepCopy]
  · intro fs h; simp [deepCopy, h]
  · simp [deepCopyF]
  · intro k v fs hv hf; simp [deepCopyF, hv, hf]

/-- Every tree has positive size. -/
theorem sizeT_pos : ∀ t, 0 < sizeT t := by
  intro t; cases t <;> simp [sizeT]

/-! ## Lookup characterizations of merge and diff -/

/-- Lookup in the target part of a merge. -/
theorem lookupF_mergeOverTarget (tf : CFields) (s : CTree) (k : String) :
    lookupF (mergeOverTarget tf s) k = (lookupF tf k).map (mergeValAt s k) := by
  induction tf using cfields_ind with
  | hnil => simp [mergeOverTarget, lookupF]
  | hcons k1 v1 rest ih =>
      simp only [mergeOverTarget, lookupF]
      by_cases h : k1 = k
      · subst h; simp [mergeValAt]
      · simp [h, ih]

/-- Lookup in the source-only part of a merge. -/
theorem lookupF_mergeSourceOnly (sf tf : CFields) (k : String) :
    lookupF (mergeSourceOnly sf tf) k =
      if hasKeyF tf k = true then none else (lookupF sf k).map deepCopy := by
  induction sf using cfields_ind with
  | hnil => simp [mergeSourceOnly, lookupF]
  | hcons k1 v1 rest ih =>
      simp only [mergeSourceOnly]
      by_cases h1 : hasKeyF tf k1
      · rw [if_pos h1, ih]
        by_cases h2 : k1 = k
        · subst h2; simp [h1]
        · simp [lookupF, h2]
      · rw [if_neg h1]
        simp only [lookupF]
        by_cases h2 : k1 = k
        · subst h2; simp [h1]
        · simp [h2, ih]

/-- Lookup in a concatenation of field lists. -/
theorem lookupF_appendF (a b : CFields) (k : String) :
    lookupF (appendF a b) k =
      match lookupF a k with
      | some v => some v
      | none => lookupF b k := by
  induction a using cfields_ind with
  | hnil => simp [appendF, lookupF]
  | hcons k1 v1 rest ih =>
      simp only [appendF, lookupF]
      by_cases h : k1 = k
      · simp [h]
      · simp [h, ih]

/-- A merge result is always a plain object. -/
theorem deepMergeConfig_isObj (t s : CTree) :
    (deepMergeConfig t s).isObj = true := by
  cases t <;> simp [deepMergeConfig, CTree.isObj]

/-- A diff result is always a plain object. -/
theorem deepDiffConfig_isObj (old new : CTree) :
    (deepDiffConfig old new).isObj = true := by
  cases new <;> simp [deepDiffConfig, CTree.isObj]

/-- A key whose value reads as a plain object is owned. -/
theorem hasKeyJS_of_getJS_isObj (t : CTree) (k : String)
    (h : (getJS t k).isObj = true) : hasKeyJS t k = true := by
  cases t with
  | leaf v => simp [getJS, CTree.isObj] at h
  | node fs =>
      cases hl : lookupF fs k with
      | none => rw [getJS] at h; simp [hl, CTree.isObj] at h
      | some v => simp [hasKeyJS, hasKeyF, hl]

/-- An unowned key reads as `undefined`. -/
theorem getJS_of_not_hasKeyJS (t : CTree) (k : String)
    (h : hasKeyJS t k = false) : getJS t k = .leaf .vUndefined := by
  cases t with
  | leaf v => rfl
  | node fs =>
      cases hl : lookupF fs k with
      | none => rw [getJS]; simp [hl]
      | some v => simp [hasKeyJS, hasKeyF, hl] at h

/-- The value of a merge at a key: the recursive merge where both sides
own plain objects, else the source value where the source owns the key,
else the target value where the target owns it, else `undefined`. -/
theorem getJS_deepMergeConfig (t s : CTree) (k : String) :
    getJS (deepMergeConfig t s) k =
      if ((getJS t k).isObj && (getJS s k).isObj) = true then
        deepMergeConfig (getJS t k) (getJS s k)
      else if hasKeyJS s k = true then getJS s k
      else if hasKeyJS t k = true then getJS t k
      else .leaf .vUndefined := by
  cases t with
  | leaf v =>
      have h0 : getJS (CTree.leaf v) k = .leaf .vUndefined := rfl
      have h1 : hasKeyJS (CTree.leaf v) k = false := rfl
      rw [h0, h1]
      have h2 : ((CTree.leaf CVal.vUndefined).isObj && (getJS s k).isObj) = false := by
        simp [CTree.isObj]
      rw [h2]
      simp only [Bool.false_eq_true, if_false]
      rw [deepMergeConfig, deepCopy_eq_self.2]
      cases s with
      | leaf w => rfl
      | node sf =>
          rw [getJS]
          cases hl : lookupF sf k with
          | none =>
              have : hasKeyJS (CTree.node sf) k = false := by
                simp [hasKeyJS, hasKeyF, hl]
              simp [fieldsOf, hl, this]
          | some sv =>
              have : hasKeyJS (CTree.node sf) k = true := by
                simp [hasKeyJS, hasKeyF, hl]
              simp [fieldsOf, hl, this, getJS]
  | node tf =>
      rw [deepMergeConfig, getJS, lookupF_appendF, lookupF_mergeOverTarget,
        lookupF_mergeSourceOnly]
      cases hl : lookupF tf k with
      | some tv =>
          have hg : getJS (CTree.node tf) k = tv := by rw [getJS]; simp [hl]
          have hk : hasKeyJS (CTree.node tf) k = true := by
            simp [hasKeyJS, hasKeyF, hl]
          rw [hg, hk]
          show mergeValAt s k tv = _
          rw [mergeValAt]
          by_cases hc : ((tv.isObj && (getJS s k).isObj) = true)
          · rw [if_pos hc, if_pos hc]
          · rw [if_neg hc, if_neg hc]
            by_cases hs : hasKeyJS s k = true
            · rw [if_pos hs, if_pos hs, deepCopy_eq_self.1]
            · rw [if_neg hs, if_neg hs, deepCopy_eq_self.1, if_pos rfl]
      | none =>
          have hg : getJS (CTree.node tf) k = .leaf .vUndefined := by
            rw [getJS]; simp [hl]
          have hkt : hasKeyF tf k = false := by simp [hasKeyF, hl]
          have hk : hasKeyJS (CTree.node tf) k = false := by
            simp [hasKeyJS, hkt]
          rw [hg, hk, hkt]
          have h2 : ((CTree.leaf CVal.vUndefined).isObj && (getJS s k).isObj) = false := by
        
            simp [CTree.isObj]
          rw [h2]
          simp only [Bool.false_eq_true, if_false]
          cases s with
          | leaf w => rfl
          | node sf =>
              cases hls : lookupF sf k with
              | none =>
                  have : hasKeyJS (CTree.node sf) k = false := by
                    simp [hasKeyJS, hasKeyF, hls]
                  simp [fieldsOf, hls, this]
              | some sv =>
                  have : hasKeyJS (CTree.node sf) k = true := by
                    simp [hasKeyJS, hasKeyF, hls]
                  simp [fieldsOf, hls, this, getJS, deepCopy_eq_self.1]

/-- Lookup in a diff, for a field list with unique keys: a key absent from
the new config is absent from the diff; a key of the new config appears
with the non-empty recursive sub-diff where both sides own objects, with
the new value where it strictly differs, and not at all otherwise. -/
theorem lookupF_diffFieldsF (nf : CFields) (old : CTree) (k : String)
    (hwf : wellFormedF nf = true) :
    lookupF (diffFieldsF old nf) k =
      match lookupF nf k with
      | none => none
      | some nv =>
        if ((getJS old k).isObj && nv.isObj) = true then
          if 0 < numFields (fieldsOf (deepDiffConfig (getJS old k) nv)) then
            some (deepDiffConfig (getJS old k) nv)
          else none
        else if jsStrictNeq (getJS old k) nv = true then some nv
        else none := by
  induction nf using cfields_ind with
  | hnil => simp [diffFieldsF, lookupF]
  | hcons k1 nv1 rest ih =>
      rw [wellFormedF] at hwf
      simp only [Bool.and_eq_true, Bool.not_eq_true'] at hwf
      obtain ⟨⟨h1, h2⟩, h3⟩ := hwf
      have hrest := ih h3
      simp only [diffFieldsF, lookupF]
      by_cases hc : ((getJS old k1).isObj && nv1.isObj) = true
      · by_cases hs : 0 < numFields (fieldsOf (deepDiffConfig (getJS old k1) nv1))
        · rw [if_pos hc, if_pos hs]
          simp only [lookupF]
          by_cases hk : k1 = k
          · subst hk; simp [hc, hs]
          · simp [hk, hrest]
        · rw [if_pos hc, if_neg hs, hrest]
          by_cases hk : k1 = k
          · subst hk
            have : lookupF rest k1 = none := by
              rcases hn : lookupF rest k1 with _ | v
              · rfl
              · rw [hasKeyF, hn] at h1; simp at h1
            simp [this, hc, hs]
          · simp [hk]
      · by_cases hq : jsStrictNeq (getJS old k1) nv1 = true
        · rw [if_neg hc, if_pos hq]
          simp only [lookupF]
          by_cases hk : k1 = k
          · subst hk; simp [hc, hq]
          · simp [hk, hrest]
        · rw [if_neg hc, if_neg hq, hrest]
          by_cases hk : k1 = k
          · subst hk
            have : lookupF rest k1 = none := by
              rcases hn : lookupF rest k1 with _ | v
              · rfl
              · rw [hasKeyF, hn] at h1; simp at h1
            simp [this, hc, hq]
          · simp [hk]

/-! ## Field membership -/

/-- In a unique-key field list, lookup finds each member binding. -/
theorem lookupF_of_memF (fs : CFields) (k : String) (v : CTree)
    (hwf : wellFormedF fs = true) (hm : MemF k v fs) :
    lookupF fs k = some v := by
  induction fs using cfields_ind with
  | hnil => exact absurd hm id
  | hcons k1 v1 rest ih =>
      rw [wellFormedF] at hwf
      simp only [Bool.and_eq_true, Bool.not_eq_true'] at hwf
      obtain ⟨⟨h1, h2⟩, h3⟩ := hwf
      rcases hm with ⟨rfl, rfl⟩ | hm
      · simp [lookupF]
      · have hr := ih h3 hm
        have hne : k1 ≠ k := by
          intro h
          subst h
          rw [hasKeyF, hr] at h1
          simp at h1
        simp [lookupF, hne, hr]

/-- Member values of a well-formed field list are well formed. -/
theorem wellFormed_of_memF (fs : CFields) (k : String) (v : CTree)
    (hwf : wellFormedF fs = true) (hm : MemF k v fs) :
    wellFormed v = true := by
  induction fs using cfields_ind with
  | hnil => exact absurd hm id
  | hcons k1 v1 rest ih =>
      rw [wellFormedF] at hwf
      simp only [Bool.and_eq_true, Bool.not_eq_true'] at hwf
      obtain ⟨⟨h1, h2⟩, h3⟩ := hwf
      rcases hm with ⟨rfl, rfl⟩ | hm
      · exact h2
      · exact ih h3 hm

/-- Member values are smaller than their field list. -/
theorem sizeT_le_of_memF (fs : CFields) (k : String) (v : CTree)
    (hm : MemF k v fs) : sizeT v ≤ sizeF fs := by
  induction fs using cfields_ind with
  | hnil => exact absurd hm id
  | hcons k1 v1 rest ih =>
      rcases hm with ⟨rfl, rfl⟩ | hm
      · simp [sizeF]; omega
      · have := ih hm
        simp [sizeF]; omega

/-- Pointwise agreement follows from agreement at every member binding. -/
theorem agreesFieldsOn_of_entries (fs : CFields) (m : CTree)
    (h : ∀ k v, MemF k v fs → agreesOn (getJS m k) v = true) :
    agreesFieldsOn m fs = true := by
  induction fs using cfields_ind with
  | hnil => rfl
  | hcons k1 v1 rest ih =>
      rw [agreesFieldsOn, Bool.and_eq_true]
      exact ⟨h k1 v1 (Or.inl ⟨rfl, rfl⟩),
        ih (fun k v hm => h k v (Or.inr hm))⟩

/-- A well-formed tree agrees with itself on all its own key paths. -/
theorem agreesOn_refl :
    (∀ t, wellFormed t = true → agreesOn t t = true) ∧
    (∀ fs, wellFormedF fs = true →
      ∀ k v, MemF k v fs → agreesOn v v = true) := by
  refine ctree_mutual_ind _ _ ?_ ?_ ?_ ?_
  · intro v _; simp [agreesOn]
  · intro fs hQ hwf
    rw [wellFormed] at hwf
    rw [agreesOn, Bool.and_eq_true]
    refine ⟨rfl, agreesFieldsOn_of_entries fs _ ?_⟩
    intro k v hm
    have hl : lookupF fs k = some v := lookupF_of_memF fs k v hwf hm
    have : getJS (CTree.node fs) k = v := by rw [getJS]; simp [hl]
    rw [this]
    exact hQ hwf k v hm
  · intro _ k v hm; exact absurd hm id
  · intro k v fs hP hQ hwf k1 v1 hm
    rw [wellFormedF] at hwf
    simp only [Bool.and_eq_true, Bool.not_eq_true'] at hwf
    obtain ⟨⟨h1, h2⟩, h3⟩ := hwf
    rcases hm with ⟨rfl, rfl⟩ | hm
    · exact hP h2
    · exact hQ h3 k1 v1 hm

/-- Values that are not strictly unequal are equal (both leaves carrying
the same value, in the cases `deepDiffConfig` reaches). -/
theorem eq_of_jsStrictNeq_false (a b : CTree)
    (h : jsStrictNeq a b = false) : a = b := by
  cases a <;> cases b <;> simp [jsStrictNeq] at h ⊢
  exact h

/-- If a diff over a field list is empty, every binding of the list was
excluded: either both sides own objects with an empty recursive sub-diff,
or the values are strictly equal. -/
theorem diff_empty_entries (nf : CFields) (old : CTree)
    (hnum : numFields (diffFieldsF old nf) = 0) :
    ∀ k nv, MemF k nv nf →
      (((getJS old k).isObj && nv.isObj) = true ∧
        numFields (fieldsOf (deepDiffConfig (getJS old k) nv)) = 0) ∨
      (((getJS old k).isObj && nv.isObj) = false ∧
        jsStrictNeq (getJS old k) nv = false) := by
  induction nf using cfields_ind with
  | hnil => intro k nv hm; exact absurd hm id
  | hcons k1 nv1 rest ih =>
      intro k nv hm
      rw [diffFieldsF] at hnum
      by_cases hc : ((getJS old k1).isObj && nv1.isObj) = true
      · by_cases hs : 0 < numFields (fieldsOf (deepDiffConfig (getJS old k1) nv1))
        · rw [if_pos hc, if_pos hs, numFields] at hnum
          omega
        · rw [if_pos hc, if_neg hs] at hnum
          rcases hm with ⟨rfl, rfl⟩ | hm
          · exact Or.inl ⟨hc, by omega⟩
          · exact ih hnum k nv hm
      · by_cases hq : jsStrictNeq (getJS old k1) nv1 = true
        · rw [if_neg hc, if_pos hq, numFields] at hnum
          omega
        · rw [if_neg hc, if_neg hq] at hnum
          rcases hm with ⟨rfl, rfl⟩ | hm
          · exact Or.inr ⟨by simpa using hc, by simpa using hq⟩
          · exact ih hnum k nv hm

/-- Main round-trip induction: merging a diff onto the old config agrees
with the new config on all key paths of the new config; and a config on
which the diff is empty already agrees with the new config. -/
theorem mergeDiff_strong : ∀ n : Nat, ∀ new : CTree, sizeT new ≤ n →
    wellFormed new = true →
    (∀ old, new.isObj = true →
      agreesOn (deepMergeConfig old (deepDiffConfig old new)) new = true) ∧
    (∀ old, old.isObj = true → new.isObj = true →
      numFields (fieldsOf (deepDiffConfig old new)) = 0 →
      agreesOn old new = true) := by
  intro n
  induction n with
  | zero =>
      intro new h
      have := sizeT_pos new
      omega
  | succ n ih =>
      intro new hsize hwf
      cases new with
      | leaf v =>
          exact ⟨fun old h => by simp [CTree.isObj] at h,
            fun old _ h => by simp [CTree.isObj] at h⟩
      | node nf =>
          rw [wellFormed] at hwf
          rw [sizeT] at hsize
          constructor
          · intro old _
            simp only [deepDiffConfig]
            rw [agreesOn, Bool.and_eq_true]
            refine ⟨deepMergeConfig_isObj _ _, agreesFieldsOn_of_entries nf _ ?_⟩
            intro k nv hm
            have hlk : lookupF nf k = some nv := lookupF_of_memF nf k nv hwf hm
            have hwfnv : wellFormed nv = true := wellFormed_of_memF nf k nv hwf hm
            have hsz : sizeT nv ≤ n := by
              have h1 := sizeT_le_of_memF nf k nv hm
              omega
            have hld0 := lookupF_diffFieldsF nf old k hwf
            rw [hlk] at hld0
            have hld : lookupF (diffFieldsF old nf) k =
                (if ((getJS old k).isObj && nv.isObj) = true then
                  if 0 < numFields (fieldsOf (deepDiffConfig (getJS old k) nv)) then
                    some (deepDiffConfig (getJS old k) nv)
                  else none
                else if jsStrictNeq (getJS old k) nv = true then some nv
                else none) := hld0
            rw [getJS_deepMergeConfig]
            by_cases hc : ((getJS old k).isObj && nv.isObj) = true
            · have hc2 := hc
              rw [Bool.and_eq_true] at hc2
              obtain ⟨hc2a, hc2b⟩ := hc2
              by_cases hs : 0 < numFields (fieldsOf (deepDiffConfig (getJS old k) nv))
              · have hgd : getJS (.node (diffFieldsF old nf)) k =
                    deepDiffConfig (getJS old k) nv := by
                  rw [getJS, hld, if_pos hc, if_pos hs]
                  rfl
                rw [hgd]
                have hcond : ((getJS old k).isObj &&
                    (deepDiffConfig (getJS old k) nv).isObj) = true := by
                  rw [Bool.and_eq_true]
                  exact ⟨hc2a, deepDiffConfig_isObj _ _⟩
                rw [if_pos hcond]
                exact (ih nv hsz hwfnv).1 (getJS old k) hc2b
              · have hgd : getJS (.node (diffFieldsF old nf)) k = .leaf .vUndefined := by
                  rw [getJS, hld, if_pos hc, if_neg hs]
                  rfl
                have hkd : hasKeyJS (.node (diffFieldsF old nf)) k = false := by
                  rw [hasKeyJS, hasKeyF, hld, if_pos hc, if_neg hs]
                  rfl
                rw [hgd, hkd]
                have hcond : ((getJS old k).isObj &&
                    (CTree.leaf CVal.vUndefined).isObj) = false := by
                  simp [CTree.isObj]
                rw [hcond]
                simp only [Bool.false_eq_true, if_false]
                have hko : hasKeyJS old k = true :=
                  hasKeyJS_of_getJS_isObj old k hc2a
                rw [hko, if_pos rfl]
                exact (ih nv hsz hwfnv).2 (getJS old k) hc2a hc2b (by omega)
            · by_cases hq : jsStrictNeq (getJS old k) nv = true
              · have hgd : getJS (.node (diffFieldsF old nf)) k = nv := by
                  rw [getJS, hld, if_neg hc, if_pos hq]
                  rfl
                have hkd : hasKeyJS (.node (diffFieldsF old nf)) k = true := by
                  rw [hasKeyJS, hasKeyF, hld, if_neg hc, if_pos hq]
                  rfl
                rw [hgd, hkd, if_neg hc, if_pos rfl]
                exact agreesOn_refl.1 nv hwfnv
              · have heq : getJS old k = nv :=
                  eq_of_jsStrictNeq_false _ _ (by simpa using hq)
                have hgd : getJS (.node (diffFieldsF old nf)) k = .leaf .vUndefined := by
                  rw [getJS, hld, if_neg hc, if_neg hq]
                  rfl
                have hkd : hasKeyJS (.node (diffFieldsF old nf)) k = false := by
                  rw [hasKeyJS, hasKeyF, hld, if_neg hc, if_neg hq]
                  rfl
                rw [hgd, hkd]
                have hcond : ((getJS old k).isObj &&
                    (CTree.leaf CVal.vUndefined).isObj) = false := by
                  simp [CTree.isObj]
                rw [hcond]
                simp only [Bool.false_eq_true, if_false]
                by_cases hko : hasKeyJS old k = true
                · rw [hko, if_pos rfl, heq]
                  exact agreesOn_refl.1 nv hwfnv
                · rw [if_neg hko]
                  have hgu : getJS old k = .leaf .vUndefined :=
                    getJS_of_not_hasKeyJS old k (by simpa using hko)
                  rw [hgu] at heq
                  rw [← heq]
                  simp [agreesOn]
          · intro old hobj _ hnum
            simp only [deepDiffConfig, fieldsOf] at hnum
            rw [agreesOn, Bool.and_eq_true]
            refine ⟨hobj, agreesFieldsOn_of_entries nf old ?_⟩
            intro k nv hm
            have hwfnv : wellFormed nv = true := wellFormed_of_memF nf k nv hwf hm
            have hsz : sizeT nv ≤ n := by
              have h1 := sizeT_le_of_memF nf k nv hm
              omega
            rcases diff_empty_entries nf old hnum k nv hm with ⟨hc, hzero⟩ | ⟨_, hq⟩
            · have hc2 := hc
              rw [Bool.and_eq_true] at hc2
              exact (ih nv hsz hwfnv).2 (getJS old k) hc2.1 hc2.2 hzero
            · have heq : getJS old k = nv := eq_of_jsStrictNeq_false _ _ hq
              rw [heq]
              exact agreesOn_refl.1 nv hwfnv

set_option maxRecDepth 40000 in
/-- C6: for well-formed config trees, merging `deepDiffConfig(old, new)`
onto `old` is observationally equal to `new` restricted to the key paths
present in `new`; and for the concrete configs `A` (the default config)
and `B` (differing from `A` only in `viewOnly` and `animation.duration`),
the diff is exactly the two-field partial tree and merging it onto `A`
reproduces `B` exactly. -/
theorem diff_merge_roundtrip :
    (∀ old new : CTree, wellFormed new = true → new.isObj = true →
      agreesOn (deepMergeConfig old (deepDiffConfig old new)) new = true) ∧
    deepDiffConfig cfgA cfgB = diffAB ∧
    deepMergeConfig cfgA (deepDiffConfig cfgA cfgB) = cfgB := by
  refine ⟨fun old new h1 h2 =>
    (mergeDiff_strong (sizeT new) new le_rfl h1).1 old h2, by decide, by decide⟩

set_option maxRecDepth 40000 in
/-- Witness for C6: the universal round-trip statement applied to the
concrete configs `A` and `B`, with its hypotheses checked by evaluation. -/
theorem diff_merge_roundtrip_witness :
    agreesOn (deepMergeConfig cfgA (deepDiffConfig cfgA cfgB)) cfgB = true :=
  diff_merge_roundtrip.1 cfgA cfgB (by decide) (by decide)

/-! ## Game-state bridge theorems -/

/-- Helper: one object-shaped move unfolds to an unconditional engine
action, projection rebuild and state refresh, returning `true`. -/
theorem move_obj_eq {sigma : Type} (e : Engine sigma) (s : ApiState sigma)
    (f t : String) (p : Option String) (em : Bool) :
    move e s (.obj f t p) em =
      (true,
        if e.isGameOver (e.makeAction s.game (keyToSquareIndex f) (keyToSquareIndex t)) then
          forbidMoves (updateGameState e
            { s with
              game := e.makeAction s.game (keyToSquareIndex f) (keyToSquareIndex t),
              pieces := fullRerenderMap e
                (e.makeAction s.game (keyToSquareIndex f) (keyToSquareIndex t)) } false)
        else
          updateGameState e
            { s with
              game := e.makeAction s.game (keyToSquareIndex f) (keyToSquareIndex t),
              pieces := fullRerenderMap e
                (e.makeAction s.game (keyToSquareIndex f) (keyToSquareIndex t)) } false) :=
  rfl

set_option maxRecDepth 40000 in
/-- C1: `move` never consults the legal-action set.  At the failing input
of the claim (origin e2, destination e5, a destination that is not in the
legal-action set of e2, witnessed on an engine whose legal-action sets
are empty), `isMoveLegal` is false yet `move` returns `true` and the
engine state advances; in general every object-shaped move request
returns `true` regardless of legality, contradicting the documented
`false if the move was illegal` contract. -/
theorem move_skips_legality :
    isMoveLegal natEngine natStart "e2" "e5" = false ∧
    (move natEngine natStart (.obj "e2" "e5" none) true).1 = true ∧
    (move natEngine natStart (.obj "e2" "e5" none) true).2.game = 1 ∧
    natStart.game = 0 ∧
    (∀ (sigma : Type) (e : Engine sigma) (s : ApiState sigma) (f t : String)
      (p : Option String) (em : Bool), (move e s (.obj f t p) em).1 = true) :=
  ⟨by decide, rfl, by decide, rfl, fun _ _ _ _ _ _ _ => rfl⟩

set_option maxRecDepth 40000 in
/-- C10: every string-form move request (for example a SAN string) is
rejected: `move` returns `false` and the whole bridge state is returned
unchanged, regardless of whether the denoted move would be legal. -/
theorem move_string_returns_false :
    ∀ (sigma : Type) (e : Engine sigma) (s : ApiState sigma) (san : String)
      (em : Bool), move e s (.str san) em = (false, s) :=
  fun _ _ _ _ _ => rfl

set_option maxRecDepth 40000 in
/-- C5 counterexample: after the game-ending first move of `overEngine`,
`movable.color` is cleared, and the a2-to-a3 request is still reported
legal; yet the subsequent `move` call returns `true` and advances the
engine state, not `false` with no state change as claimed. -/
theorem move_after_game_over_counterexample :
    overEngine.isGameOver overAfter1.game = true ∧
    overAfter1.movableColor = none ∧
    isMoveLegal overEngine overAfter1 "a2" "a3" = true ∧
    (move overEngine overAfter1 (.obj "a2" "a3" none) true).1 = true ∧
    (move overEngine overAfter1 (.obj "a2" "a3" none) true).2.game ≠ overAfter1.game := by
  refine ⟨by decide, by decide, by decide, rfl, by decide⟩

/-- C5 amended: a move whose engine action ends the game clears the
movable color of the visual board (disabling GUI move input only, as the
source comments); subsequent programmatic object-shaped `move` calls
still return `true`. -/
theorem move_game_over_forbids_gui_only :
    ∀ (sigma : Type) (e : Engine sigma) (s : ApiState sigma) (f t : String)
      (p : Option String) (em : Bool),
      e.isGameOver (e.makeAction s.game (keyToSquareIndex f) (keyToSquareIndex t)) = true →
      (move e s (.obj f t p) em).2.movableColor = none ∧
      (∀ (f2 t2 : String) (p2 : Option String) (em2 : Bool),
        (move e ((move e s (.obj f t p) em).2) (.obj f2 t2 p2) em2).1 = true) := by
  intro sigma e s f t p em h
  rw [move_obj_eq, if_pos h]
  exact ⟨rfl, fun _ _ _ _ => rfl⟩

set_option maxRecDepth 40000 in
/-- Witness for the amended C5 statement on the concrete game-ending
move of `overEngine`. -/
theorem move_game_over_forbids_gui_only_witness :
    (move overEngine natStart (.obj "a2" "a3" none) true).2.movableColor = none ∧
    (∀ (f2 t2 : String) (p2 : Option String) (em2 : Bool),
      (move overEngine ((move overEngine natStart (.obj "a2" "a3" none) true).2)
        (.obj f2 t2 p2) em2).1 = true) :=
  move_game_over_forbids_gui_only Nat overEngine natStart "a2" "a3" none true (by decide)

set_option maxRecDepth 40000 in
/-- C8 counterexample: from the state after three applied moves,
`viewHistory 1` does not enter `Viewing(1)` and does not mark the board
view-only: the history viewer state stays disabled and the board stays
interactive, because `viewHistory` is an unimplemented stub. -/
theorem viewHistory_counterexample :
    (viewHistory natAfter3 1).hv = HVState.off ∧
    (∀ vo : Bool, (viewHistory natAfter3 1).hv ≠ HVState.on 1 vo) ∧
    (viewHistory natAfter3 1).boardViewOnly = false := by
  refine ⟨by decide, by decide, by decide⟩

/-- C8 amended: `viewHistory` is a stub: for every state and ply it
performs no state change (so the bridge never enters a viewing state and
the live snapshot is trivially preserved), and `stopViewingHistory` is
likewise a no-op. -/
theorem viewHistory_stub :
    ∀ (sigma : Type) (e : Engine sigma) (s : ApiState sigma) (ply : Int),
      viewHistory s ply = s ∧ stopViewingHistory e s = s := by
  intro sigma e s ply
  refine ⟨rfl, ?_⟩
  rw [stopViewingHistory]
  split <;> rfl

/-- C9: the history, undo and PGN-style operations are stubs: in every
state `undoLastMove` and `loadPgn` perform no state change, and
`getHistory`, `getLastMove`, `getBoardPosition` and `getPgnInfo` return
the empty list, `undefined`, the empty array and the empty record. -/
theorem stub_operations :
    ∀ (sigma : Type) (s : ApiState sigma) (pgn : String) (verbose : Bool),
      undoLastMove s = s ∧ loadPgn s pgn = s ∧ getHistory s verbose = [] ∧
      getLastMove s = none ∧ getBoardPosition s = [] ∧ getPgnInfo s = [] :=
  fun _ _ _ _ => ⟨rfl, rfl, rfl, rfl, rfl, rfl⟩

/-! ## Event-hook patching theorems -/

/-- Helper: one step of a `setConfig` call sequence. -/
theorem setConfigSeq_cons (s : HookSlots) (b : Bool) (l : List Bool) :
    setConfigSeq s (b :: l) = setConfigSeq (setConfigHook s b) l := rfl

/-- Helper: any number of `setConfig` calls with `fillDefaults` true
leave the caller slot holding the raw user hook and install the user
hook wrapped exactly once. -/
theorem setConfigSeq_true (u : Nat) :
    ∀ (n : Nat) (b0 : Option Hook),
      setConfigSeq ⟨some (.user u), b0⟩ (List.replicate (n + 1) true) =
        ⟨some (.user u), some (.patched (.user u))⟩ := by
  intro n
  induction n with
  | zero => intro b0; rfl
  | succ m ih =>
      intro b0
      have h1 : List.replicate (m + 1 + 1) true = true :: List.replicate (m + 1) true := rfl
      rw [h1, setConfigSeq_cons]
      have hcfg : setConfigHook ⟨some (.user u), b0⟩ true =
          ⟨some (.user u), some (.patched (.user u))⟩ := rfl
      rw [hcfg]
      exact ih _

/-- Helper: `setConfig` calls with `fillDefaults` false patch the caller
slot in place, so each call wraps the previous slot value once more. -/
theorem setConfigSeq_false :
    ∀ (n : Nat) (h0 : Hook) (b0 : Option Hook),
      setConfigSeq ⟨some h0, b0⟩ (List.replicate (n + 1) false) =
        ⟨some (patchedIter (n + 1) h0), some (patchedIter (n + 1) h0)⟩ := by
  intro n
  induction n with
  | zero => intro h0 b0; rfl
  | succ m ih =>
      intro h0 b0
      have h1 : List.replicate (m + 1 + 1) false = false :: List.replicate (m + 1) false := rfl
      rw [h1, setConfigSeq_cons]
      have hcfg : setConfigHook ⟨some h0, b0⟩ false =
          ⟨some (.patched h0), some (.patched h0)⟩ := rfl
      rw [hcfg, ih (.patched h0) (some (.patched h0))]
      rfl

/-- Helper: wrapping a hook `m` times adds `m` internal-handler runs. -/
theorem changeTurnRuns_patchedIter :
    ∀ (m : Nat) (h : Hook),
      changeTurnRuns (patchedIter m h) = m + changeTurnRuns h := by
  intro m
  induction m with
  | zero => intro h; rw [patchedIter]; omega
  | succ k ih =>
      intro h
      rw [patchedIter, ih (.patched h), changeTurnRuns]
      omega

/-- C2 counterexample: registering a caller `after` hook and then calling
`setConfig` twice with `fillDefaults` false makes the internal
`changeTurn` handler execute twice per move, not exactly once: the second
call composes onto the already-composed caller-visible slot. -/
theorem setConfig_twice_counterexample :
    changeTurnRunsPerMove (setConfigSeq ⟨some (.user 0), none⟩ [false, false]) = 2 := by
  decide

/-- C2 amended: with `fillDefaults` true on every call, re-patching reads
the untouched caller hook each time and `changeTurn` executes exactly
once per move, however many times `setConfig` is called; with
`fillDefaults` false, `setConfig` mutates the caller-visible slot in
place, so after `n + 1` calls `changeTurn` executes `n + 1` times per
move. -/
theorem setConfig_patch_behavior :
    ∀ (u n : Nat),
      changeTurnRunsPerMove
        (setConfigSeq ⟨some (.user u), none⟩ (List.replicate (n + 1) true)) = 1 ∧
      changeTurnRunsPerMove
        (setConfigSeq ⟨some (.user u), none⟩ (List.replicate (n + 1) false)) = n + 1 := by
  intro u n
  constructor
  · rw [setConfigSeq_true u n none]
    rfl
  · rw [setConfigSeq_false n (.user u) none]
    show changeTurnRuns (patchedIter (n + 1) (.user u)) = n + 1
    rw [changeTurnRuns_patchedIter (n + 1) (.user u), changeTurnRuns]

/-! ## Heap model lemmas -/

/-- Store extension is reflexive. -/
theorem heapExt_refl (h : Heap) : HeapExt h h :=
  ⟨Nat.le_refl _, fun _ _ => rfl⟩

/-- Store extension is transitive. -/
theorem heapExt_trans {h1 h2 h3 : Heap} (a : HeapExt h1 h2) (b : HeapExt h2 h3) :
    HeapExt h1 h3 :=
  ⟨Nat.le_trans a.1 b.1, fun x hx => by
    rw [b.2 x (Nat.lt_of_lt_of_le hx a.1), a.2 x hx]⟩

/-- Every address stored in a bounded list is below the bound. -/
theorem lookupStore_lt (st : List (Nat × List (String × HVal))) (nx : Nat)
    (hwf : st.all (fun p => decide (p.1 < nx)) = true) :
    ∀ (a : Nat) (hf : List (String × HVal)), lookupStore st a = some hf → a < nx := by
  induction st with
  | nil => intro a hf hl; simp [lookupStore] at hl
  | cons p rest ih =>
      intro a hf hl
      rw [List.all_cons, Bool.and_eq_true] at hwf
      rcases p with ⟨a1, fs1⟩
      rw [lookupStore] at hl
      by_cases hp : a1 = a
      · subst hp
        have := hwf.1
        simp only [decide_eq_true_eq] at this
        exact this
      · rw [if_neg hp] at hl
        exact ih hwf.2 a hf hl

/-- In a well-formed heap, every stored address is below the counter. -/
theorem lookupStore_lt_of_wf (h : Heap) (hwf : heapWF h = true) :
    ∀ (a : Nat) (hf : List (String × HVal)),
      lookupStore h.store a = some hf → a < h.next :=
  lookupStore_lt h.store h.next hwf

/-- A store extension preserves every stored object of a well-formed
heap. -/
theorem store_pres_of_ext {h h2 : Heap} (hwf : heapWF h = true)
    (he : HeapExt h h2) :
    ∀ (a : Nat) (hf : List (String × HVal)),
      lookupStore h.store a = some hf → lookupStore h2.store a = some hf := by
  intro a hf hl
  rw [he.2 a (lookupStore_lt_of_wf h hwf a hf hl)]
  exact hl

/-- Allocation: the fresh object is stored at the old counter, the heap
stays well formed, and the old store is untouched. -/
theorem allocH_spec (h : Heap) (fs : List (String × HVal)) (hwf : heapWF h = true) :
    (allocH h fs).1 = .ref h.next ∧
    (allocH h fs).2.next = h.next + 1 ∧
    lookupStore (allocH h fs).2.store h.next = some fs ∧
    HeapExt h (allocH h fs).2 ∧
    heapWF (allocH h fs).2 = true := by
  have hstore : (allocH h fs).2.store = (h.next, fs) :: h.store := rfl
  have hnext : (allocH h fs).2.next = h.next + 1 := rfl
  refine ⟨rfl, rfl, ?_, ⟨?_, ?_⟩, ?_⟩
  · rw [hstore, lookupStore, if_pos rfl]
  · rw [hnext]; omega
  · intro a ha
    rw [hstore, lookupStore]
    have hne : h.next ≠ a := by omega
    rw [if_neg hne]
  · rw [heapWF, List.all_eq_true]
    rw [heapWF, List.all_eq_true] at hwf
    intro p hp
    rw [hstore] at hp
    rw [hnext]
    rcases List.mem_cons.mp hp with hp | hp
    · subst hp
      simp
    · have := hwf p hp
      simp only [decide_eq_true_eq] at this ⊢
      omega

/-- Mutual induction over the representation predicates. -/
theorem repGE_mutual_ind (st : List (Nat × List (String × HVal))) (n : Nat)
    (P : HVal → CTree → Prop) (Q : List (String × HVal) → CFields → Prop)
    (hprim : ∀ v, P (.prim v) (.leaf v))
    (href : ∀ a hf fs, n ≤ a → lookupStore st a = some hf → RepFGE st n hf fs →
      Q hf fs → P (.ref a) (.node fs))
    (hnil : Q [] .nil)
    (hcons : ∀ k v t hf fs, RepGE st n v t → RepFGE st n hf fs → P v t →
      Q hf fs → Q ((k, v) :: hf) (.cons k t fs)) :
    (∀ v t, RepGE st n v t → P v t) ∧
    (∀ hf fs, RepFGE st n hf fs → Q hf fs) :=
  ⟨fun v t h =>
    @RepGE.rec st n (fun v t _ => P v t) (fun hf fs _ => Q hf fs)
      (fun v => hprim v)
      (fun a hf fs ha hl hrf ihq => href a hf fs ha hl hrf ihq)
      hnil
      (fun k v t hf fs hrv hrf ihp ihq => hcons k v t hf fs hrv hrf ihp ihq)
      v t h,
   fun hf fs h =>
    @RepFGE.rec st n (fun v t _ => P v t) (fun hf fs _ => Q hf fs)
      (fun v => hprim v)
      (fun a hf fs ha hl hrf ihq => href a hf fs ha hl hrf ihq)
      hnil
      (fun k v t hf fs hrv hrf ihp ihq => hcons k v t hf fs hrv hrf ihp ihq)
      hf fs h⟩

/-- Representation is antitone in the reference bound. -/
theorem repGE_mono (st : List (Nat × List (String × HVal))) (m n : Nat)
    (hmn : m ≤ n) :
    (∀ v t, RepGE st n v t → RepGE st m v t) ∧
    (∀ hf fs, RepFGE st n hf fs → RepFGE st m hf fs) := by
  refine repGE_mutual_ind st n _ _ ?_ ?_ ?_ ?_
  · intro v; exact RepGE.prim v
  · intro a hf fs ha hl _ ih
    exact RepGE.ref a hf fs (Nat.le_trans hmn ha) hl ih
  · exact RepFGE.nil
  · intro k v t hf fs _ _ ihv ihf
    exact RepFGE.cons k v t hf fs ihv ihf

/-- Representation transfers along a lookup-preserving store change. -/
theorem repGE_ext (st st2 : List (Nat × List (String × HVal))) (n : Nat)
    (hst : ∀ (a : Nat) (hf : List (String × HVal)),
      lookupStore st a = some hf → lookupStore st2 a = some hf) :
    (∀ v t, RepGE st n v t → RepGE st2 n v t) ∧
    (∀ hf fs, RepFGE st n hf fs → RepFGE st2 n hf fs) := by
  refine repGE_mutual_ind st n _ _ ?_ ?_ ?_ ?_
  · intro v; exact RepGE.prim v
  · intro a hf fs ha hl _ ih
    exact RepGE.ref a hf fs ha (hst a hf hl) ih
  · exact RepFGE.nil
  · intro k v t hf fs _ _ ihv ihf
    exact RepFGE.cons k v t hf fs ihv ihf

/-- The heap operations only allocate: on success the result heap is a
well-formed extension of the input heap (no pre-existing object is ever
mutated, whatever the arguments). -/
theorem heapOpsExt : ∀ n : Nat,
    (∀ (h : Heap) (v : HVal) (r : HVal × Heap), heapWF h = true →
      deepCopyH n h v = some r → HeapExt h r.2 ∧ heapWF r.2 = true) ∧
    (∀ (h : Heap) (l : List (String × HVal)) (r : List (String × HVal) × Heap),
      heapWF h = true → deepCopyFieldsH n h l = some r →
      HeapExt h r.2 ∧ heapWF r.2 = true) ∧
    (∀ (h : Heap) (t s : HVal) (r : HVal × Heap), heapWF h = true →
      deepMergeConfigH n h t s = some r → HeapExt h r.2 ∧ heapWF r.2 = true) ∧
    (∀ (h : Heap) (t s : HVal) (l : List (String × HVal))
      (r : List (String × HVal) × Heap), heapWF h = true →
      mergeEntriesH n h t s l = some r → HeapExt h r.2 ∧ heapWF r.2 = true) := by
  intro n
  induction n with
  | zero =>
      refine ⟨fun h v r hwf hr => ?_, fun h l r hwf hr => ?_,
        fun h t s r hwf hr => ?_, fun h t s l r hwf hr => ?_⟩
      · simp [deepCopyH] at hr
      · simp [deepCopyFieldsH] at hr
      · simp [deepMergeConfigH] at hr
      · simp [mergeEntriesH] at hr
  | succ n ih =>
      obtain ⟨ihC, ihF, ihM, ihE⟩ := ih
      refine ⟨?_, ?_, ?_, ?_⟩
      · intro h v r hwf hr
        cases v with
        | prim p =>
            simp only [deepCopyH] at hr
            obtain rfl := Option.some.inj hr
            exact ⟨heapExt_refl h, hwf⟩
        | ref a =>
            rcases hl : lookupStore h.store a with _ | hf
            · simp only [deepCopyH, hl] at hr
              exact Option.noConfusion hr
            · rcases hcf : deepCopyFieldsH n h hf with _ | ⟨hf2, h2⟩
              · simp only [deepCopyH, hl, hcf] at hr
                exact Option.noConfusion hr
              · simp only [deepCopyH, hl, hcf] at hr
                obtain rfl := Option.some.inj hr
                have h1 := ihF h hf (hf2, h2) hwf hcf
                have h2s := allocH_spec h2 hf2 h1.2
                exact ⟨heapExt_trans h1.1 h2s.2.2.2.1, h2s.2.2.2.2⟩
      · intro h l r hwf hr
        cases l with
        | nil =>
            simp only [deepCopyFieldsH] at hr
            obtain rfl := Option.some.inj hr
            exact ⟨heapExt_refl h, hwf⟩
        | cons p rest =>
            rcases p with ⟨k, v⟩
            rcases hv : deepCopyH n h v with _ | ⟨v2, h2⟩
            · simp only [deepCopyFieldsH, hv] at hr
              exact Option.noConfusion hr
            · rcases hrest : deepCopyFieldsH n h2 rest with _ | ⟨rest2, h3⟩
              · simp only [deepCopyFieldsH, hv, hrest] at hr
                exact Option.noConfusion hr
              · simp only [deepCopyFieldsH, hv, hrest] at hr
                obtain rfl := Option.some.inj hr
                have h1 := ihC h v (v2, h2) hwf hv
                have h2x := ihF h2 rest (rest2, h3) h1.2 hrest
                exact ⟨heapExt_trans h1.1 h2x.1, h2x.2⟩
      · intro h t s r hwf hr
        rcases hme : mergeEntriesH n h t s (spreadMergeH (fieldsOfH h t) (fieldsOfH h s))
          with _ | ⟨fs2, h2⟩
        · simp only [deepMergeConfigH, hme] at hr
          exact Option.noConfusion hr
        · simp only [deepMergeConfigH, hme] at hr
          obtain rfl := Option.some.inj hr
          have h1 := ihE h t s (spreadMergeH (fieldsOfH h t) (fieldsOfH h s)) (fs2, h2) hwf hme
          have h2s := allocH_spec h2 fs2 h1.2
          exact ⟨heapExt_trans h1.1 h2s.2.2.2.1, h2s.2.2.2.2⟩
      · intro h t s l r hwf hr
        cases l with
        | nil =>
            simp only [mergeEntriesH] at hr
            obtain rfl := Option.some.inj hr
            exact ⟨heapExt_refl h, hwf⟩
        | cons p rest =>
            rcases p with ⟨k, v⟩
            by_cases hc : (isObjH (getHV h t k) && isObjH (getHV h s k)) = true
            · rcases hm : deepMergeConfigH n h (getHV h t k) (getHV h s k) with _ | ⟨v2, h2⟩
              · simp only [mergeEntriesH, if_pos hc, hm] at hr
                exact Option.noConfusion hr
              · rcases hrest : mergeEntriesH n h2 t s rest with _ | ⟨rest2, h3⟩
                · simp only [mergeEntriesH, if_pos hc, hm, hrest] at hr
                  exact Option.noConfusion hr
                · simp only [mergeEntriesH, if_pos hc, hm, hrest] at hr
                  obtain rfl := Option.some.inj hr
                  have h1 := ihM h (getHV h t k) (getHV h s k) (v2, h2) hwf hm
                  have h2x := ihE h2 t s rest (rest2, h3) h1.2 hrest
                  exact ⟨heapExt_trans h1.1 h2x.1, h2x.2⟩
            · rcases hm : deepCopyH n h v with _ | ⟨v2, h2⟩
              · simp only [mergeEntriesH, if_neg hc, hm] at hr
                exact Option.noConfusion hr
              · rcases hrest : mergeEntriesH n h2 t s rest with _ | ⟨rest2, h3⟩
                · simp only [mergeEntriesH, if_neg hc, hm, hrest] at hr
                  exact Option.noConfusion hr
                · simp only [mergeEntriesH, if_neg hc, hm, hrest] at hr
                  obtain rfl := Option.some.inj hr
                  have h1 := ihC h v (v2, h2) hwf hm
                  have h2x := ihE h2 t s rest (rest2, h3) h1.2 hrest
                  exact ⟨heapExt_trans h1.1 h2x.1, h2x.2⟩

/-- Success of `deepCopy` in the heap model on represented acyclic input
with fuel one past the tree size, and produces a structurally equal value
all of whose object references are fresh. -/
theorem deepCopyH_ok : ∀ n : Nat,
    (∀ (t : CTree) (h : Heap) (v : HVal), sizeT t + 1 ≤ n → heapWF h = true →
      RepGE h.store 0 v t →
      ∃ v2 h2, deepCopyH n h v = some (v2, h2) ∧ RepGE h2.store h.next v2 t) ∧
    (∀ (cfs : CFields) (h : Heap) (lhf : List (String × HVal)),
      sizeF cfs + 1 ≤ n → heapWF h = true → RepFGE h.store 0 lhf cfs →
      ∃ hf2 h2, deepCopyFieldsH n h lhf = some (hf2, h2) ∧
        RepFGE h2.store h.next hf2 cfs) := by
  intro n
  induction n with
  | zero =>
      constructor
      · intro t h v hsz hwf hrep
        have := sizeT_pos t
        omega
      · intro cfs h lhf hsz hwf hrep
        omega
  | succ n ih =>
      obtain ⟨ihT, ihF⟩ := ih
      constructor
      · intro t h v hsz hwf hrep
        cases hrep with
        | prim cv =>
            exact ⟨.prim cv, h, rfl, RepGE.prim cv⟩
        | ref a hf fs ha hl hrf =>
            have hszf : sizeF fs + 1 ≤ n := by
              rw [sizeT] at hsz
              omega
            obtain ⟨hf2, h2, hcf, hrep2⟩ := ihF fs h hf hszf hwf hrf
            have hx := (heapOpsExt n).2.1 h hf (hf2, h2) hwf hcf
            have has := allocH_spec h2 hf2 hx.2
            refine ⟨(allocH h2 hf2).1, (allocH h2 hf2).2, ?_, ?_⟩
            · simp only [deepCopyH, hl, hcf]
            · rw [has.1]
              refine RepGE.ref h2.next hf2 fs (Nat.le_trans hx.1.1 (Nat.le_refl _))
                has.2.2.1 ?_
              have hpres := store_pres_of_ext hx.2 has.2.2.2.1
              exact (repGE_ext h2.store (allocH h2 hf2).2.store h.next hpres).2 hf2 fs hrep2
      · intro cfs h lhf hsz hwf hrep
        cases hrep with
        | nil =>
            exact ⟨[], h, rfl, RepFGE.nil⟩
        | cons k v t hfrest fsrest hrv hrfrest =>
            have hszT : sizeT t + 1 ≤ n := by
              rw [sizeF] at hsz
              omega
            obtain ⟨v2, h2, hcv, hrep2⟩ := ihT t h v hszT hwf hrv
            have hx := (heapOpsExt n).1 h v (v2, h2) hwf hcv
            have hszF : sizeF fsrest + 1 ≤ n := by
              rw [sizeF] at hsz
              have := sizeT_pos t
              omega
            have hpres := store_pres_of_ext hwf hx.1
            have hrf2 : RepFGE h2.store 0 hfrest fsrest :=
              (repGE_ext h.store h2.store 0 hpres).2 hfrest fsrest hrfrest
            obtain ⟨rest2, h3, hcr, hrep3⟩ := ihF fsrest h2 hfrest hszF hx.2 hrf2
            have hx2 := (heapOpsExt n).2.1 h2 hfrest (rest2, h3) hx.2 hcr
            refine ⟨(k, v2) :: rest2, h3, ?_, ?_⟩
            · simp only [deepCopyFieldsH, hcv, hcr]
            · refine RepFGE.cons k v2 t rest2 fsrest ?_ ?_
              · have hpres2 := store_pres_of_ext hx.2 hx2.1
                exact (repGE_ext h2.store h3.store h.next hpres2).1 v2 t hrep2
              · exact (repGE_mono h3.store h.next h2.next hx.1.1).2 rest2 fsrest hrep3

/-- The spread of a field list with an empty source is the field list. -/
theorem spreadMergeH_nil_right (tf : List (String × HVal)) :
    spreadMergeH tf [] = tf := by
  have h1 : spreadMergeH tf [] = tf.map id ++ [] := rfl
  rw [h1, List.map_id, List.append_nil]

/-- The merge loop with the empty object as source deep-copies every
spread entry: the source owns no key, so the recursion branch is never
taken, and the result fields represent the same trees with only fresh
references. -/
theorem mergeEntriesH_empty : ∀ n : Nat,
    ∀ (cfs : CFields) (h : Heap) (t : HVal) (b : Nat) (lhf : List (String × HVal)),
      sizeF cfs + 1 ≤ n → heapWF h = true → lookupStore h.store b = some [] →
      RepFGE h.store 0 lhf cfs →
      ∃ hf2 h2, mergeEntriesH n h t (.ref b) lhf = some (hf2, h2) ∧
        RepFGE h2.store h.next hf2 cfs := by
  intro n
  induction n with
  | zero =>
      intro cfs h t b lhf hsz hwf hb hrep
      omega
  | succ n ih =>
      intro cfs h t b lhf hsz hwf hb hrep
      cases hrep with
      | nil => exact ⟨[], h, rfl, RepFGE.nil⟩
      | cons k v tv hfrest fsrest hrv hrfrest =>
          have hsv : getHV h (.ref b) k = .prim .vUndefined := by
            simp [getHV, hb, lookupHF]
          have hcneg : ¬((isObjH (getHV h t k) && isObjH (getHV h (.ref b) k)) = true) := by
            rw [hsv]
            simp [isObjH]
          have hszT : sizeT tv + 1 ≤ n := by
            rw [sizeF] at hsz
            omega
          obtain ⟨v2, h2, hcv, hrep2⟩ := (deepCopyH_ok n).1 tv h v hszT hwf hrv
          have hx := (heapOpsExt n).1 h v (v2, h2) hwf hcv
          have hpres := store_pres_of_ext hwf hx.1
          have hb2 : lookupStore h2.store b = some [] := hpres b [] hb
          have hrf2 : RepFGE h2.store 0 hfrest fsrest :=
            (repGE_ext h.store h2.store 0 hpres).2 hfrest fsrest hrfrest
          have hszF : sizeF fsrest + 1 ≤ n := by
            rw [sizeF] at hsz
            have := sizeT_pos tv
            omega
          obtain ⟨rest2, h3, hcr, hrep3⟩ := ih fsrest h2 t b hfrest hszF hx.2 hb2 hrf2
          have hx2 := (heapOpsExt n).2.2.2 h2 t (.ref b) hfrest (rest2, h3) hx.2 hcr
          refine ⟨(k, v2) :: rest2, h3, ?_, ?_⟩
          · simp only [mergeEntriesH, if_neg hcneg, hcv, hcr]
          · refine RepFGE.cons k v2 tv rest2 fsrest ?_ ?_
            · have hpres2 := store_pres_of_ext hx.2 hx2.1
              exact (repGE_ext h2.store h3.store h.next hpres2).1 v2 tv hrep2
            · exact (repGE_mono h3.store h.next h2.next hx.1.1).2 rest2 fsrest hrep3

/-- C7: in the heap model, (a) `deepMergeConfig` never mutates any
pre-existing object — whenever it succeeds, every address of the input
heap (in particular both arguments and everything they reach) keeps its
exact content, and the heap stays well formed; and (b) merging a
represented config object with a fresh empty object literal succeeds and
yields a structurally equal tree whose object references are all at or
above the old allocation counter: a fresh copy, not the same reference
as the target and sharing none of its plain-object nodes (which all lie
below the counter). -/
theorem merge_identity_no_mutation :
    (∀ (fuel : Nat) (h : Heap) (t s : HVal) (r : HVal × Heap),
      heapWF h = true → deepMergeConfigH fuel h t s = some r →
      HeapExt h r.2 ∧ heapWF r.2 = true) ∧
    (∀ (t : CTree) (h : Heap) (v : HVal) (b : Nat),
      heapWF h = true → RepGE h.store 0 v t → t.isObj = true →
      lookupStore h.store b = some [] →
      ∃ v2 h2, deepMergeConfigH (sizeT t + 2) h v (.ref b) = some (v2, h2) ∧
        RepGE h2.store h.next v2 t ∧ v2 ≠ v ∧ HeapExt h h2 ∧ heapWF h2 = true) := by
  constructor
  · intro fuel h t s r hwf hr
    exact (heapOpsExt fuel).2.2.1 h t s r hwf hr
  · intro t h v b hwf hrep hobj hb
    cases t with
    | leaf cv => simp [CTree.isObj] at hobj
    | node fs =>
        cases hrep with
        | ref a hf fs2 ha hl hrf =>
            have hfields_t : fieldsOfH h (.ref a) = hf := by
              simp [fieldsOfH, hl]
            have hfields_s : fieldsOfH h (.ref b) = [] := by
              simp [fieldsOfH, hb]
            have hspread : spreadMergeH (fieldsOfH h (.ref a)) (fieldsOfH h (.ref b)) = hf := by
              rw [hfields_t, hfields_s, spreadMergeH_nil_right]
            have hszF : sizeF fs + 1 ≤ sizeT (CTree.node fs) + 1 := by
              rw [sizeT]
              omega
            obtain ⟨hf2, h2, hme, hrep2⟩ :=
              mergeEntriesH_empty (sizeT (CTree.node fs) + 1) fs h (.ref a) b hf hszF hwf hb hrf
            have hx := (heapOpsExt (sizeT (CTree.node fs) + 1)).2.2.2 h (.ref a) (.ref b) hf
              (hf2, h2) hwf hme
            have has := allocH_spec h2 hf2 hx.2
            refine ⟨(allocH h2 hf2).1, (allocH h2 hf2).2, ?_, ?_, ?_, ?_, ?_⟩
            · have hfl : sizeT (CTree.node fs) + 2 = (sizeT (CTree.node fs) + 1) + 1 := rfl
              rw [hfl]
              simp only [deepMergeConfigH, hspread, hme]
            · rw [has.1]
              refine RepGE.ref h2.next hf2 fs (Nat.le_trans hx.1.1 (Nat.le_refl _))
                has.2.2.1 ?_
              have hpres := store_pres_of_ext hx.2 has.2.2.2.1
              exact (repGE_ext h2.store (allocH h2 hf2).2.store h.next hpres).2 hf2 fs hrep2
            · rw [has.1]
              intro hcontra
              have halt : a < h.next := lookupStore_lt_of_wf h hwf a hf hl
              have heqa : h2.next = a := by
                injection hcontra
              have hle : h.next ≤ h2.next := hx.1.1
              omega
            · exact heapExt_trans hx.1 has.2.2.2.1
            · exact has.2.2.2.2

/-- Witness for C7 at a concrete heap: the object at address 0 (the tree
with one boolean field) merged with the empty object at address 1
produces a fresh structurally equal object and leaves the store intact. -/
theorem merge_identity_no_mutation_witness :
    ∃ v2 h2, deepMergeConfigH (sizeT treeW + 2) heapW (.ref 0) (.ref 1) = some (v2, h2) ∧
      RepGE h2.store heapW.next v2 treeW ∧ v2 ≠ .ref 0 ∧ HeapExt heapW h2 ∧
      heapWF h2 = true :=
  merge_identity_no_mutation.2 treeW heapW (.ref 0) 1 (by decide)
    (RepGE.ref 0 [("a", .prim (.vBool true))] (.cons "a" (.leaf (.vBool true)) .nil)
      (Nat.zero_le 0) (by decide)
      (RepFGE.cons "a" (.prim (.vBool true)) (.leaf (.vBool true)) [] .nil
        (RepGE.prim (.vBool true)) RepFGE.nil))
    (by decide) (by decide)
